import Mathlib

/-!
# Verification of the Green_Path_AI routing core

Shallow embedding of `src/pathfinding_algo.py` (the A* search engine,
route-statistics aggregator), `scripts/add_pollution_weights.py` (the
edge-weighting scheme) and `src/app.py` (the dual-route orchestrator).

Modelling conventions:
* Node identifiers are `Nat` (osmnx node ids are integers).
* Edge-attribute dictionaries become an `EdgeData` record of `Option` fields;
  `dict.get(key, default)` becomes `Option.getD`.
* `float` arithmetic is modelled over `ℚ`; `float('inf')` becomes `⊤ : WithTop ℚ`.
* The haversine great-circle distance of a node to the goal (a transcendental
  function of the stored coordinates) is abstracted as a parameter
  `hdist : Nat → ℚ`; the criterion-dependent scaling of it (lines 100–109 of
  `pathfinding_algo.py`) is embedded concretely in `hscore`.
* Python's `heapq` pops the lexicographically least tuple; the frontier is
  modelled as the list of pushed entries and `popMin` removes the least entry
  under the tuple order (ties are identical triples, so this is faithful).
* The unbounded `while open_set:` loop becomes fuel-based recursion
  (`astarLoop`); `astar_pathfinding` supplies a fuel (`searchFuel`) that is
  proved sufficient for well-formed graphs.
-/

/-- Edge-attribute record, mirroring a networkx edge-data dict: each field is
present (`some`) or absent (`none`), matching `dict.get` semantics. -/
structure EdgeData where
  length? : Option ℚ := none
  time? : Option ℚ := none
  pollution? : Option ℚ := none
  pollution_multiplier? : Option ℚ := none
  road_type? : Option String := none
  highway? : Option String := none
  deriving DecidableEq

/-- `edge_data.get(key)` for the numeric attributes read by the search
(`pathfinding_algo.py` lines 84, 127–129). Unknown keys are absent. -/
def EdgeData.get (e : EdgeData) (key : String) : Option ℚ :=
  if key = "length" then e.length?
  else if key = "time" then e.time?
  else if key = "pollution" then e.pollution?
  else if key = "pollution_multiplier" then e.pollution_multiplier?
  else none

/-- A directed multigraph in the shape the core consumes: nodes with
coordinates `(id, y, x)`, and for each ordered pair at most one adjacency
entry holding the list of parallel edges (list index = networkx key). -/
structure Graph where
  nodes : List (Nat × ℚ × ℚ)
  adj : List (Nat × Nat × List EdgeData)
  deriving DecidableEq

def Graph.nodeIds (G : Graph) : List Nat := G.nodes.map (fun t => t.1)

/-- `G[u][v]` as a list of parallel edges (empty when no edge exists). -/
def Graph.edgesBetween (G : Graph) (u v : Nat) : List EdgeData :=
  ((G.adj.find? (fun t => decide (t.1 = u) && decide (t.2.1 = v))).map (fun t => t.2.2)).getD []

/-- `G.neighbors(u)`: successors of `u` (each listed once per adjacency entry,
only when at least one parallel edge exists). -/
def Graph.neighbors (G : Graph) (u : Nat) : List Nat :=
  G.adj.filterMap (fun t => if t.1 = u ∧ t.2.2 ≠ [] then some t.2.1 else none)

/-- networkx `G.degree(n)` on a MultiDiGraph: in-degree plus out-degree,
counting parallel edges (self-loops twice). -/
def Graph.degree (G : Graph) (n : Nat) : Nat :=
  (G.adj.map (fun t =>
    (if t.1 = n then t.2.2.length else 0) + (if t.2.1 = n then t.2.2.length else 0))).sum

/-- Well-formedness: adjacency endpoints are declared nodes. -/
def Graph.WF (G : Graph) : Prop :=
  ∀ t ∈ G.adj, t.1 ∈ G.nodeIds ∧ t.2.1 ∈ G.nodeIds

instance (G : Graph) : Decidable G.WF := by
  unfold Graph.WF
  exact List.decidableBAll _ _

/-- Adjacency well-formedness (networkx invariant): an adjacency entry exists
only when at least one parallel edge exists, and each ordered pair has at most
one entry (dict keys are unique). -/
def Graph.AdjOK (G : Graph) : Prop :=
  ∀ t ∈ G.adj, t.2.2 ≠ []

instance (G : Graph) : Decidable G.AdjOK := by
  unfold Graph.AdjOK
  exact List.decidableBAll _ _

/-- `edge_data = G[current][neighbor][0]` (line 80): the key-0 edge. -/
def defaultEdge : EdgeData := {}

def edge0 (G : Graph) (u v : Nat) : EdgeData := (G.edgesBetween u v).headD defaultEdge

/-- Line 84: `edge_cost = edge_data.get(weight, edge_data.get('length', 100))`. -/
def edge_cost (e : EdgeData) (weight : String) : ℚ :=
  (e.get weight).getD ((e.get "length").getD 100)

/-- Cost the search charges for stepping from `u` to `v`: the key-0 edge's
cost under the active criterion. -/
def cost0 (G : Graph) (weight : String) (u v : Nat) : ℚ := edge_cost (edge0 G u v) weight

/-- Line 46: `MAX_SPEED_MPS = 80 / 3.6`. -/
def MAX_SPEED_MPS : ℚ := 80 / 3.6

/-- Lines 100–109: criterion-dependent scaling of the haversine distance. -/
def hscore (hdist : Nat → ℚ) (weight : String) (n : Nat) : ℚ :=
  if weight = "time" then hdist n / MAX_SPEED_MPS
  else if weight = "pollution" then hdist n
  else hdist n

/-- Lexicographic order on frontier entries `(f, g, node)`: lower `f` first,
ties broken by lower `g`, remaining ties by node id. This is how Python
compares the tuples pushed on the `heapq` frontier. -/
def entryLE (a b : ℚ × ℚ × Nat) : Bool :=
  decide (a.1 < b.1) ||
    (decide (a.1 = b.1) &&
      (decide (a.2.1 < b.2.1) || (decide (a.2.1 = b.2.1) && decide (a.2.2 ≤ b.2.2))))

/-- `heappop`: remove the least entry under the tuple order (the element
Python's heap yields). Returns the popped entry and the remaining frontier. -/
def popMin : List (ℚ × ℚ × Nat) → Option ((ℚ × ℚ × Nat) × List (ℚ × ℚ × Nat))
  | [] => none
  | x :: xs =>
    match popMin xs with
    | none => some (x, [])
    | some (m, rest) => if entryLE x m then some (x, xs) else some (m, x :: rest)

/-- `heappush`: add an entry to the frontier. -/
def heappush (l : List (ℚ × ℚ × Nat)) (e : ℚ × ℚ × Nat) : List (ℚ × ℚ × Nat) := l ++ [e]

/-- Assoc-list lookup modelling Python dict access (`came_from`, `g_scores`);
updates are consed to the front, so `find?` sees the newest binding. -/
def alookup {α : Type} (l : List (Nat × α)) (k : Nat) : Option α :=
  (l.find? (fun p => decide (p.1 = k))).map (fun p => p.2)

/-- Local mutable state of one `astar_pathfinding` invocation (lines 34–44). -/
structure AState where
  open_set : List (ℚ × ℚ × Nat)
  came_from : List (Nat × Nat)
  g_scores : List (Nat × ℚ)
  explored_nodes : List Nat
  explored_edges : List (Nat × Nat)
  closed_set : List Nat
  deriving DecidableEq

/-- Result quadruple of `astar_pathfinding`: `(path, total_cost,
explored_nodes, explored_edges)`; `path = none`, `cost = ⊤` on failure. -/
structure SearchResult where
  path : Option (List Nat)
  cost : WithTop ℚ
  explored_nodes : List Nat
  explored_edges : List (Nat × Nat)
  deriving DecidableEq

/-- `neighbor not in g_scores or tentative_g < g_scores[neighbor]` (line 89). -/
def improves : Option ℚ → ℚ → Prop
  | none, _ => True
  | some g, tent => tent < g

instance (o : Option ℚ) (t : ℚ) : Decidable (improves o t) :=
  match o with
  | none => isTrue trivial
  | some g => inferInstanceAs (Decidable (t < g))

/-- Lines 74–112: relaxation of one neighbor of the popped node `cur` whose
popped g-value is `curG`. -/
def relaxStep (G : Graph) (hdist : Nat → ℚ) (weight : String) (cur : Nat) (curG : ℚ)
    (st : AState) (nb : Nat) : AState :=
  if nb ∈ st.closed_set then st
  else if improves (alookup st.g_scores nb) (curG + cost0 G weight cur nb) then
    { st with
      came_from := (nb, cur) :: st.came_from
      g_scores := (nb, curG + cost0 G weight cur nb) :: st.g_scores
      explored_edges := st.explored_edges ++ [(cur, nb)]
      open_set := heappush st.open_set
        (curG + cost0 G weight cur nb + hscore hdist weight nb, curG + cost0 G weight cur nb, nb) }
  else st

/-- The `for neighbor in G.neighbors(current):` loop. -/
def relaxAll (G : Graph) (hdist : Nat → ℚ) (weight : String) (cur : Nat) (curG : ℚ)
    (st : AState) : AState :=
  (G.neighbors cur).foldl (relaxStep G hdist weight cur curG) st

/-- Lines 61–67: walk `came_from` backwards from the goal. Fuel-based; the
source's `while curr in came_from:` loop performs at most one step per
distinct key, so `came_from.length + 1` steps always suffice (proved below
for states the search reaches). -/
def reconstructAux (cf : List (Nat × Nat)) : Nat → Nat → List Nat → List Nat
  | 0, _, acc => acc
  | fuel + 1, curr, acc =>
    match alookup cf curr with
    | none => acc
    | some p => reconstructAux cf fuel p (acc ++ [curr])

/-- Path reconstruction (lines 61–67): collect predecessors from the goal,
append the start node, reverse. -/
def reconstructPath (cf : List (Nat × Nat)) (endN startN : Nat) : List Nat :=
  ((reconstructAux cf (cf.length + 1) endN []) ++ [startN]).reverse

/-- One-iteration-at-a-time embedding of the `while open_set:` loop
(lines 48–115), with fuel. `none` means the fuel ran out (the source loop
would still be running); `some r` is the function's return value. -/
def astarLoop (G : Graph) (hdist : Nat → ℚ) (startN endN : Nat) (weight : String) :
    Nat → AState → Option SearchResult
  | 0, _ => none
  | fuel + 1, st =>
    match popMin st.open_set with
    | none => some ⟨none, ⊤, st.explored_nodes, st.explored_edges⟩
    | some (e, rest) =>
      if e.2.2 ∈ st.closed_set then
        astarLoop G hdist startN endN weight fuel { st with open_set := rest }
      else
        if e.2.2 = endN then
          some ⟨some (reconstructPath st.came_from endN startN), (e.2.1 : ℚ),
            st.explored_nodes ++ [e.2.2], st.explored_edges⟩
        else
          astarLoop G hdist startN endN weight fuel
            (relaxAll G hdist weight e.2.2 e.2.1
              { st with
                open_set := rest
                explored_nodes := st.explored_nodes ++ [e.2.2]
                closed_set := st.closed_set ++ [e.2.2] })

/-- Initial state (lines 34–44): frontier `[(0, 0, start)]`, `g_scores =
{start: 0}`, everything else empty. -/
def initState (startN : Nat) : AState := ⟨[(0, 0, startN)], [], [(startN, 0)], [], [], []⟩

/-- Fuel sufficient for the search loop on a well-formed graph: the loop pops
one entry per iteration, and at most one entry per declared node plus one per
relaxation is ever pushed. -/
def searchFuel (G : Graph) : Nat :=
  (G.nodeIds.toFinset.sum fun x => (G.neighbors x).length + 1) + 2

/-- `astar_pathfinding(G, start_node, end_node, weight)` (lines 21–115),
with the haversine-to-goal distance abstracted as `hdist`. -/
def astar_pathfinding (G : Graph) (hdist : Nat → ℚ) (start_node end_node : Nat)
    (weight : String) : SearchResult :=
  (astarLoop G hdist start_node end_node weight (searchFuel G) (initState start_node)).getD
    ⟨none, ⊤, [], []⟩

/-- Consecutive pairs of a path (`for i in range(len(path) - 1)`). -/
def routePairs : List Nat → List (Nat × Nat)
  | a :: b :: rest => (a, b) :: routePairs (b :: rest)
  | _ => []

/-- `calculate_route_stats` output record (lines 137–144). -/
structure RouteStats where
  name : String
  distance_km : ℚ
  time_minutes : ℚ
  pollution_score : ℚ
  num_segments : Nat
  road_types : List (String × Nat)
  deriving DecidableEq

/-- `road_types[road_type] = road_types.get(road_type, 0) + 1` on an
insertion-ordered association list. -/
def bumpCount : List (String × Nat) → String → List (String × Nat)
  | [], k => [(k, 1)]
  | (k', n) :: rest, k =>
    if k' = k then (k', n + 1) :: rest else (k', n) :: bumpCount rest k

/-- `calculate_route_stats(G, path, route_name)` (lines 117–144). -/
def calculate_route_stats (G : Graph) (path : List Nat) (route_name : String) : RouteStats :=
  let totals := (routePairs path).foldl
    (fun acc ab =>
      let e := edge0 G ab.1 ab.2
      (acc.1 + (e.get "length").getD 0,
       acc.2.1 + (e.get "time").getD 0,
       acc.2.2.1 + (e.get "pollution").getD 0,
       bumpCount acc.2.2.2 (e.road_type?.getD "unknown")))
    ((0 : ℚ), (0 : ℚ), (0 : ℚ), ([] : List (String × Nat)))
  { name := route_name
    distance_km := totals.1 / 1000
    time_minutes := totals.2.1 / 60
    pollution_score := totals.2.2.1
    num_segments := path.length - 1
    road_types := totals.2.2.2 }

/-- `POLLUTION_FACTORS` (`add_pollution_weights.py` lines 13–40). -/
def POLLUTION_FACTORS : List (String × ℚ) :=
  [("living_street", 3.0), ("busway", 20.0), ("residential", 2.5), ("unclassified", 2.2),
   ("primary", 1.6), ("primary_link", 1.7), ("secondary", 1.8), ("secondary_link", 1.9),
   ("tertiary", 2.0), ("tertiary_link", 2.1), ("motorway", 1.0), ("motorway_link", 1.5),
   ("trunk", 1.2), ("trunk_link", 1.5), ("default", 1.8)]

/-- `speed_limits_kmh` (`add_pollution_weights.py` lines 43–70). -/
def speed_limits_kmh : List (String × ℚ) :=
  [("living_street", 10), ("busway", 1), ("residential", 20), ("unclassified", 20),
   ("primary", 40), ("primary_link", 20), ("secondary", 30), ("secondary_link", 20),
   ("tertiary", 25), ("tertiary_link", 15), ("motorway", 80), ("motorway_link", 40),
   ("trunk", 60), ("trunk_link", 30), ("default", 30)]

def slookup (l : List (String × ℚ)) (k : String) : Option ℚ :=
  (l.find? (fun p => decide (p.1 = k))).map (fun p => p.2)

/-- `POLLUTION_FACTORS.get(highway, POLLUTION_FACTORS['default'])`. -/
def factorOf (hw : String) : ℚ := (slookup POLLUTION_FACTORS hw).getD 1.8

/-- `speed_limits_kmh.get(highway, speed_limits_kmh['default'])`. -/
def speedOf (hw : String) : ℚ := (slookup speed_limits_kmh hw).getD 30

/-- Body of the edge loop of `add_pollution_weights` (lines 83–114) applied to
one edge `u → v` (the `isinstance(highway, list)` branch is subsumed by the
single-`Option` highway field). Degrees are taken on the input graph. -/
def processEdge (G : Graph) (u v : Nat) (e : EdgeData) : EdgeData :=
  let highway := e.highway?.getD "default"
  let length := e.length?.getD 100
  let pollution_multiplier := factorOf highway
  let intersection_penalty : ℚ := if G.degree u > 2 ∨ G.degree v > 2 then 1.1 else 1.0
  let pollution_score := length * pollution_multiplier * intersection_penalty
  let road_speed := speedOf highway
  let time_seconds := length / 1000 / road_speed * 3600
  { e with
    pollution? := some pollution_score
    pollution_multiplier? := some pollution_multiplier
    road_type? := some highway
    time? := some time_seconds }

/-- `add_pollution_weights(G)` (lines 72–119): attach `pollution`,
`pollution_multiplier`, `road_type` and `time` to every edge. -/
def add_pollution_weights (G : Graph) : Graph :=
  { G with adj := G.adj.map (fun t => (t.1, t.2.1, t.2.2.map (processEdge G t.1 t.2.1))) }

/-- `G.nodes[n]['y'], G.nodes[n]['x']` as a coordinate pair. -/
def coordOf (G : Graph) (n : Nat) : ℚ × ℚ :=
  ((G.nodes.find? (fun t => decide (t.1 = n))).map (fun t => (t.2.1, t.2.2))).getD (0, 0)

/-- `path_to_coords` (`app.py` lines 22–24). -/
def path_to_coords (G : Graph) (path : List Nat) : List (ℚ × ℚ) := path.map (coordOf G)

/-- Python truthiness of a route value: `None` and `[]` are falsy. -/
def pyFalsy : Option (List Nat) → Bool
  | none => true
  | some [] => true
  | some (_ :: _) => false

/-- One leg of the orchestrator response (`app.py` lines 55–67). -/
structure RouteLeg where
  path : List (ℚ × ℚ)
  stats : RouteStats
  explored : List (ℚ × ℚ)
  explored_edges : List ((ℚ × ℚ) × (ℚ × ℚ))
  deriving DecidableEq

structure RouteResponse where
  time_route : RouteLeg
  pollution_route : RouteLeg
  deriving DecidableEq

/-- `get_route` (`app.py` lines 26–70) after nearest-node resolution: run both
searches; if either route is falsy answer `404 No route found`, otherwise
assemble the dual response. -/
def get_route (G : Graph) (hdist : Nat → ℚ) (start_node end_node : Nat) :
    Except (Nat × String) RouteResponse :=
  let tr := astar_pathfinding G hdist start_node end_node "time"
  let pr := astar_pathfinding G hdist start_node end_node "pollution"
  if pyFalsy tr.path || pyFalsy pr.path then Except.error (404, "No route found")
  else Except.ok
    ⟨⟨path_to_coords G (tr.path.getD []),
      calculate_route_stats G (tr.path.getD []) "Fastest Route",
      path_to_coords G tr.explored_nodes,
      tr.explored_edges.map (fun uv => (coordOf G uv.1, coordOf G uv.2))⟩,
     ⟨path_to_coords G (pr.path.getD []),
      calculate_route_stats G (pr.path.getD []) "Greenest Route",
      path_to_coords G pr.explored_nodes,
      pr.explored_edges.map (fun uv => (coordOf G uv.1, coordOf G uv.2))⟩⟩

/-- Independent recomputation of a path's total cost with the same
edge-selection rule the search uses (key-0 edge, criterion attribute with
length fallback). -/
def pathCost0 (G : Graph) (weight : String) : List Nat → ℚ
  | a :: b :: rest => cost0 G weight a b + pathCost0 G weight (b :: rest)
  | _ => 0

/-- Independent sum of the chosen criterion's raw edge attribute along a path
(key-0 edge selection). -/
def attrSum (G : Graph) (weight : String) (p : List Nat) : ℚ :=
  ((routePairs p).map (fun ab => ((edge0 G ab.1 ab.2).get weight).getD 0)).sum

/-- Directed reachability along the search's neighbor relation. -/
inductive Reach (G : Graph) (s : Nat) : Nat → Prop
  | refl : Reach G s s
  | step : ∀ a b, Reach G s a → b ∈ G.neighbors a → Reach G s b

/-- Invariant of the search loop, established after the start node is closed
on the first iteration and preserved by every later iteration. It captures:
the start node is closed with `g = 0` and no predecessor; every frontier
entry `(f, g, x)` has `x ≠ start`, a recorded score `≤ g` and `f = g + h(x)`;
every non-closed scored node has its best entry on the frontier; every
predecessor link was recorded from a closed node along a real edge with the
score equation `g(x) = g(p) + cost(p, x)`; every scored node other than the
start has a predecessor; the closed list is duplicate-free and predecessor
links strictly decrease the closing position; every closed node is scored;
the explored trace is duplicate-free and within the closed set; and every
frontier/closed node is reachable from the start. -/
structure AInv (G : Graph) (hdist : Nat → ℚ) (weight : String) (startN : Nat)
    (st : AState) : Prop where
  startClosed : startN ∈ st.closed_set
  gStart : alookup st.g_scores startN = some 0
  cfStart : alookup st.came_from startN = none
  openNotStart : ∀ e ∈ st.open_set, e.2.2 ≠ startN
  openG : ∀ e ∈ st.open_set, ∃ gx, alookup st.g_scores e.2.2 = some gx ∧ gx ≤ e.2.1 ∧
    e.1 = e.2.1 + hscore hdist weight e.2.2
  bestInOpen : ∀ x, x ∉ st.closed_set → ∀ gx, alookup st.g_scores x = some gx →
    (gx + hscore hdist weight x, gx, x) ∈ st.open_set
  cfSpec : ∀ x p, alookup st.came_from x = some p → p ∈ st.closed_set ∧ x ∈ G.neighbors p ∧
    ∃ gp, alookup st.g_scores p = some gp ∧
      alookup st.g_scores x = some (gp + cost0 G weight p x)
  gTotal : ∀ x gx, alookup st.g_scores x = some gx →
    x = startN ∨ alookup st.came_from x ≠ none
  closedNodup : st.closed_set.Nodup
  cfIdx : ∀ x p, alookup st.came_from x = some p → x ∈ st.closed_set →
    st.closed_set.indexOf p < st.closed_set.indexOf x
  closedG : ∀ x ∈ st.closed_set, ∃ gx, alookup st.g_scores x = some gx
  explNodup : st.explored_nodes.Nodup
  explClosed : ∀ x ∈ st.explored_nodes, x ∈ st.closed_set
  openReach : ∀ e ∈ st.open_set, Reach G startN e.2.2
  closedReach : ∀ x ∈ st.closed_set, Reach G startN x

/-- Termination measure of the search loop: frontier length plus, for every
not-yet-closed declared node, its out-degree plus one. Popping strictly
decreases it (lazy-deletion skips shrink the frontier; closing a node pays
for the at most out-degree many pushes its relaxation performs). -/
def openMeasure (G : Graph) (st : AState) : Nat :=
  st.open_set.length +
    ((G.nodeIds.toFinset \ st.closed_set.toFinset).sum fun x => (G.neighbors x).length + 1)

/-- Zero heuristic (an admissible instantiation of the abstracted haversine). -/
def hdistZero : Nat → ℚ := fun _ => 0

/-- The spec's §8 concrete scenario: 4-node line graph A–B–C–D with per-edge
`time = [10, 5, 20]` and `pollution = [5, 15, 5]`. -/
def lineGraph4 : Graph :=
  ⟨[(1, 0, 0), (2, 0, 0), (3, 0, 0), (4, 0, 0)],
   [(1, 2, [{ time? := some 10, pollution? := some 5 }]),
    (2, 3, [{ time? := some 5, pollution? := some 15 }]),
    (3, 4, [{ time? := some 20, pollution? := some 5 }])]⟩

/-- Two nodes joined by two parallel edges whose `time` costs are 10 (key 0)
and 3 (key 1): the spec's parallel-edge selection scenario. -/
def parallelGraph : Graph :=
  ⟨[(1, 0, 0), (2, 0, 0)], [(1, 2, [{ time? := some 10 }, { time? := some 3 }])]⟩

/-- Two declared nodes and no edges at all: a disconnected start/goal pair. -/
def noEdgeGraph : Graph := ⟨[(1, 0, 0), (2, 0, 0)], []⟩

/-- One edge carrying only `length = 100`: the criterion attributes (`time`,
`pollution`) are missing. -/
def missingAttrGraph : Graph :=
  ⟨[(1, 0, 0), (2, 0, 0)], [(1, 2, [{ length? := some 100 }])]⟩

-- Sanity checks of the embedding on the spec's concrete 4-node line scenario
-- (spec §8): time route cost 35, pollution route cost 25, same path.
example :
    (astar_pathfinding
      ⟨[(1, 0, 0), (2, 0, 0), (3, 0, 0), (4, 0, 0)],
       [(1, 2, [{ time? := some 10, pollution? := some 5 }]),
        (2, 3, [{ time? := some 5, pollution? := some 15 }]),
        (3, 4, [{ time? := some 20, pollution? := some 5 }])]⟩
      (fun _ => 0) 1 4 "time").path = some [1, 2, 3, 4] := by with_unfolding_all decide

example :
    (astar_pathfinding
      ⟨[(1, 0, 0), (2, 0, 0), (3, 0, 0), (4, 0, 0)],
       [(1, 2, [{ time? := some 10, pollution? := some 5 }]),
        (2, 3, [{ time? := some 5, pollution? := some 15 }]),
        (3, 4, [{ time? := some 20, pollution? := some 5 }])]⟩
      (fun _ => 0) 1 4 "time").cost = (35 : ℚ) := by with_unfolding_all decide

example :
    (astar_pathfinding
      ⟨[(1, 0, 0), (2, 0, 0), (3, 0, 0), (4, 0, 0)],
       [(1, 2, [{ time? := some 10, pollution? := some 5 }]),
        (2, 3, [{ time? := some 5, pollution? := some 15 }]),
        (3, 4, [{ time? := some 20, pollution? := some 5 }])]⟩
      (fun _ => 0) 1 4 "pollution").cost = (25 : ℚ) := by with_unfolding_all decide

-- Unreachable pair: empty path sentinel and infinite cost.
example :
    (astar_pathfinding ⟨[(1, 0, 0), (2, 0, 0)], []⟩ (fun _ => 0) 1 2 "time") =
      ⟨none, ⊤, [1], []⟩ := by with_unfolding_all decide

/-! ## Frontier order: `popMin` yields the lexicographically least entry -/

lemma entryLE_self (a : ℚ × ℚ × Nat) : entryLE a a = true := by
  simp [entryLE]

lemma entryLE_iff {a b : ℚ × ℚ × Nat} :
    entryLE a b = true ↔
      (a.1 < b.1 ∨ (a.1 = b.1 ∧ (a.2.1 < b.2.1 ∨ (a.2.1 = b.2.1 ∧ a.2.2 ≤ b.2.2)))) := by
  simp [entryLE]

lemma entryLE_total (a b : ℚ × ℚ × Nat) : entryLE a b = true ∨ entryLE b a = true := by
  rw [entryLE_iff, entryLE_iff]
  rcases lt_trichotomy a.1 b.1 with h | h | h
  · exact Or.inl (Or.inl h)
  · rcases lt_trichotomy a.2.1 b.2.1 with h2 | h2 | h2
    · exact Or.inl (Or.inr ⟨h, Or.inl h2⟩)
    · rcases le_total a.2.2 b.2.2 with h3 | h3
      · exact Or.inl (Or.inr ⟨h, Or.inr ⟨h2, h3⟩⟩)
      · exact Or.inr (Or.inr ⟨h.symm, Or.inr ⟨h2.symm, h3⟩⟩)
    · exact Or.inr (Or.inr ⟨h.symm, Or.inl h2⟩)
  · exact Or.inr (Or.inl h)

lemma entryLE_trans {a b c : ℚ × ℚ × Nat} (h1 : entryLE a b = true)
    (h2 : entryLE b c = true) : entryLE a c = true := by
  rw [entryLE_iff] at h1 h2 ⊢
  rcases h1 with h1 | ⟨h1e, h1r⟩
  · rcases h2 with h2 | ⟨h2e, _⟩
    · exact Or.inl (h1.trans h2)
    · exact Or.inl (h2e ▸ h1)
  · rcases h2 with h2 | ⟨h2e, h2r⟩
    · exact Or.inl (h1e ▸ h2)
    · refine Or.inr ⟨h1e.trans h2e, ?_⟩
      rcases h1r with h1r | ⟨h1re, h1rr⟩
      · rcases h2r with h2r | ⟨h2re, _⟩
        · exact Or.inl (h1r.trans h2r)
        · exact Or.inl (h2re ▸ h1r)
      · rcases h2r with h2r | ⟨h2re, h2rr⟩
        · exact Or.inl (h1re ▸ h2r)
        · exact Or.inr ⟨h1re.trans h2re, h1rr.trans h2rr⟩

lemma popMin_eq_none_iff {l : List (ℚ × ℚ × Nat)} : popMin l = none ↔ l = [] := by
  cases l with
  | nil => simp [popMin]
  | cons x xs =>
    simp only [popMin]
    split
    · simp
    · split <;> simp

lemma popMin_spec : ∀ {l : List (ℚ × ℚ × Nat)} {e rest},
    popMin l = some (e, rest) → l.Perm (e :: rest) ∧ ∀ x ∈ l, entryLE e x = true := by
  intro l
  induction l with
  | nil => intro e rest h; simp [popMin] at h
  | cons x xs ih =>
    intro e rest h
    simp only [popMin] at h
    rcases hm : popMin xs with _ | p
    · simp only [hm] at h
      have hxs : xs = [] := popMin_eq_none_iff.mp hm
      subst hxs
      simp only [Option.some.injEq, Prod.mk.injEq] at h
      obtain ⟨he, hr⟩ := h
      subst he; subst hr
      exact ⟨List.Perm.refl _, by intro y hy; simp at hy; subst hy; exact entryLE_self _⟩
    · obtain ⟨m, r⟩ := p
      simp only [hm] at h
      obtain ⟨hperm, hmin⟩ := ih hm
      by_cases hle : entryLE x m = true
      · rw [if_pos hle] at h
        simp only [Option.some.injEq, Prod.mk.injEq] at h
        obtain ⟨he, hr⟩ := h
        subst he; subst hr
        refine ⟨List.Perm.refl _, ?_⟩
        intro y hy
        rcases List.mem_cons.mp hy with hy | hy
        · subst hy; exact entryLE_self _
        · exact entryLE_trans hle (hmin y hy)
      · rw [if_neg hle] at h
        simp only [Option.some.injEq, Prod.mk.injEq] at h
        obtain ⟨he, hr⟩ := h
        subst he; subst hr
        constructor
        · exact (hperm.cons x).trans (List.Perm.swap m x r)
        · intro y hy
          rcases List.mem_cons.mp hy with hy | hy
          · subst hy
            rcases entryLE_total y m with h | h
            · exact absurd h hle
            · exact h
          · exact hmin y hy

lemma popMin_perm {l : List (ℚ × ℚ × Nat)} {e rest}
    (h : popMin l = some (e, rest)) : l.Perm (e :: rest) := (popMin_spec h).1

lemma popMin_mem {l : List (ℚ × ℚ × Nat)} {e rest}
    (h : popMin l = some (e, rest)) : e ∈ l := (popMin_perm h).mem_iff.mpr (List.mem_cons_self _ _)

lemma popMin_rest_subset {l : List (ℚ × ℚ × Nat)} {e rest}
    (h : popMin l = some (e, rest)) : ∀ x ∈ rest, x ∈ l := by
  intro x hx
  exact (popMin_perm h).mem_iff.mpr (List.mem_cons_of_mem _ hx)

lemma popMin_length {l : List (ℚ × ℚ × Nat)} {e rest}
    (h : popMin l = some (e, rest)) : l.length = rest.length + 1 := by
  have := (popMin_perm h).length_eq
  simpa using this

/-- C7: the frontier pops entries in ascending lexicographic order of the
triple `(f, g, node)` — the entry `heappop` removes is least among the frontier
under "lower `f` first, ties broken by lower `g`, remaining ties by node id",
and the rest of the frontier is preserved (as a multiset). Consequently the
whole search is a pure function of its inputs, so two runs on the same graph
and input produce identical outputs (the final conjunct). -/
theorem frontier_pops_in_ascending_order :
    (∀ (l : List (ℚ × ℚ × Nat)) (e : ℚ × ℚ × Nat) (rest : List (ℚ × ℚ × Nat)),
      popMin l = some (e, rest) →
        l.Perm (e :: rest) ∧
        ∀ x ∈ l, e.1 < x.1 ∨ (e.1 = x.1 ∧ (e.2.1 < x.2.1 ∨ (e.2.1 = x.2.1 ∧ e.2.2 ≤ x.2.2)))) ∧
    (∀ G hdist s t w, astar_pathfinding G hdist s t w = astar_pathfinding G hdist s t w) := by
  refine ⟨?_, fun _ _ _ _ _ => rfl⟩
  intro l e rest h
  obtain ⟨hperm, hmin⟩ := popMin_spec h
  exact ⟨hperm, fun x hx => entryLE_iff.mp (hmin x hx)⟩

/-- C8 counterexample: on an edge lacking the `time` attribute, the cost used
by the search under the `time` criterion is the raw fallback length `100`
(meters used directly as a cost), which is not the length converted to the
criterion's units — the repository's own weighting scheme converts a 100 m
default-road segment to `100/1000 / speed * 3600 = 12` seconds. -/
theorem missing_attr_fallback_is_unconverted :
    (astar_pathfinding missingAttrGraph hdistZero 1 2 "time").cost = ((100 : ℚ) : WithTop ℚ) ∧
    (100 : ℚ) ≠ 100 / 1000 / speedOf "default" * 3600 := by
  constructor
  · with_unfolding_all decide
  · with_unfolding_all decide

/-- C8 amended: for every edge that lacks the active criterion's attribute the
search does not fail — the edge's cost falls back to the edge's `length`
attribute (itself defaulting to 100 when absent), used directly as the cost
with no unit conversion. -/
theorem missing_attr_fallback (e : EdgeData) (w : String) (h : e.get w = none) :
    edge_cost e w = (e.get "length").getD 100 := by
  unfold edge_cost
  rw [h]
  rfl

theorem missing_attr_fallback_witness :
    ({ length? := some 37 } : EdgeData).get "time" = none ∧
      edge_cost { length? := some 37 } "time" = (({ length? := some 37 } : EdgeData).get "length").getD 100 := by
  refine ⟨by with_unfolding_all decide, missing_attr_fallback _ _ (by with_unfolding_all decide)⟩

theorem frontier_pops_in_ascending_order_witness :
    popMin [((3 : ℚ), (1 : ℚ), (5 : Nat)), ((2 : ℚ), (7 : ℚ), (4 : Nat))] =
      some (((2 : ℚ), (7 : ℚ), (4 : Nat)), [((3 : ℚ), (1 : ℚ), (5 : Nat))]) ∧
    ([((3 : ℚ), (1 : ℚ), (5 : Nat)), ((2 : ℚ), (7 : ℚ), (4 : Nat))]).Perm
      (((2 : ℚ), (7 : ℚ), (4 : Nat)) :: [((3 : ℚ), (1 : ℚ), (5 : Nat))]) := by
  have h : popMin [((3 : ℚ), (1 : ℚ), (5 : Nat)), ((2 : ℚ), (7 : ℚ), (4 : Nat))] =
      some (((2 : ℚ), (7 : ℚ), (4 : Nat)), [((3 : ℚ), (1 : ℚ), (5 : Nat))]) := by
    with_unfolding_all decide
  exact ⟨h, (frontier_pops_in_ascending_order.1 _ _ _ h).1⟩

/-- C1: on two parallel edges `1 → 2` with `time` costs 10 (key 0) and 3
(key 1), the search charges cost 10 — the first-indexed edge
(`G[current][neighbor][0]`, line 80) — not the minimum-cost edge 3 mandated
by the spec's parallel-edge policy. -/
theorem parallel_edges_use_first_not_min :
    (astar_pathfinding parallelGraph hdistZero 1 2 "time").cost = ((10 : ℚ) : WithTop ℚ) ∧
    (parallelGraph.edgesBetween 1 2).map (fun e => edge_cost e "time") = [10, 3] := by
  constructor
  · with_unfolding_all decide
  · with_unfolding_all decide

/-- C9: if either criterion's search returns no path, the orchestrator
answers the `404 No route found` error, and every successful response carries
two non-null routes — a valid route is never merged with a null one. -/
theorem get_route_no_partial_result (G : Graph) (hdist : Nat → ℚ) (s t : Nat) :
    ((astar_pathfinding G hdist s t "time").path = none ∨
        (astar_pathfinding G hdist s t "pollution").path = none →
      get_route G hdist s t = Except.error (404, "No route found")) ∧
    (∀ resp, get_route G hdist s t = Except.ok resp →
      (astar_pathfinding G hdist s t "time").path ≠ none ∧
      (astar_pathfinding G hdist s t "pollution").path ≠ none) := by
  constructor
  · intro h
    have hcond : (pyFalsy (astar_pathfinding G hdist s t "time").path ||
        pyFalsy (astar_pathfinding G hdist s t "pollution").path) = true := by
      rcases h with h | h <;> simp [h, pyFalsy]
    simp only [get_route]
    rw [if_pos hcond]
  · intro resp hok
    simp only [get_route] at hok
    by_cases hcond : (pyFalsy (astar_pathfinding G hdist s t "time").path ||
        pyFalsy (astar_pathfinding G hdist s t "pollution").path) = true
    · rw [if_pos hcond] at hok
      exact absurd hok (by simp)
    · rw [if_neg hcond] at hok
      refine ⟨fun hnone => hcond ?_, fun hnone => hcond ?_⟩ <;> simp [hnone, pyFalsy]

theorem get_route_no_partial_result_witness :
    (astar_pathfinding noEdgeGraph hdistZero 1 2 "time").path = none ∧
    get_route noEdgeGraph hdistZero 1 2 = Except.error (404, "No route found") := by
  have h1 : (astar_pathfinding noEdgeGraph hdistZero 1 2 "time").path = none := by
    with_unfolding_all decide
  exact ⟨h1, (get_route_no_partial_result noEdgeGraph hdistZero 1 2).1 (Or.inl h1)⟩

/-! ## Trivial search (start = goal) -/

lemma astarLoop_start_eq_goal (G : Graph) (hdist : Nat → ℚ) (n : Nat) (w : String)
    (fuel : Nat) :
    astarLoop G hdist n n w (fuel + 1) (initState n) =
      some ⟨some [n], ((0 : ℚ) : WithTop ℚ), [n], []⟩ := by
  simp [astarLoop, initState, popMin, reconstructPath, reconstructAux, alookup]

/-- C5: for every node `n` of the graph and every criterion, searching from
`n` to `n` returns path `[n]`, total cost 0, explored trace `[n]` and no
explored edges; and the statistics of the single-node path are all zero with
an empty road-type histogram. -/
theorem search_self_trivial (G : Graph) (hdist : Nat → ℚ) (n : Nat) (w : String)
    (hn : n ∈ G.nodeIds) :
    astar_pathfinding G hdist n n w = ⟨some [n], ((0 : ℚ) : WithTop ℚ), [n], []⟩ ∧
    ∀ route_name, calculate_route_stats G [n] route_name =
      ⟨route_name, 0, 0, 0, 0, []⟩ := by
  constructor
  · unfold astar_pathfinding
    have hfuel : searchFuel G =
        ((G.nodeIds.toFinset.sum fun x => (G.neighbors x).length + 1) + 1) + 1 := rfl
    rw [hfuel, astarLoop_start_eq_goal]
    rfl
  · intro route_name
    simp [calculate_route_stats, routePairs]

theorem search_self_trivial_witness :
    (3 ∈ lineGraph4.nodeIds) ∧
    astar_pathfinding lineGraph4 hdistZero 3 3 "pollution" =
      ⟨some [3], ((0 : ℚ) : WithTop ℚ), [3], []⟩ := by
  have hn : 3 ∈ lineGraph4.nodeIds := by with_unfolding_all decide
  exact ⟨hn, (search_self_trivial lineGraph4 hdistZero 3 "pollution" hn).1⟩

/-! ## Heuristic admissibility over the weighting scheme -/

lemma EdgeData.get_length (e : EdgeData) : e.get "length" = e.length? := by
  simp [EdgeData.get]

lemma EdgeData.get_time (e : EdgeData) : e.get "time" = e.time? := by
  simp [EdgeData.get]

lemma EdgeData.get_pollution (e : EdgeData) : e.get "pollution" = e.pollution? := by
  simp [EdgeData.get]

lemma edgesBetween_add_pollution (G : Graph) (u v : Nat) :
    (add_pollution_weights G).edgesBetween u v =
      (G.edgesBetween u v).map (processEdge G u v) := by
  unfold Graph.edgesBetween add_pollution_weights
  simp only [List.find?_map]
  have hcomp : ((fun t : Nat × Nat × List EdgeData => decide (t.1 = u) && decide (t.2.1 = v)) ∘
      (fun t : Nat × Nat × List EdgeData => (t.1, t.2.1, t.2.2.map (processEdge G t.1 t.2.1)))) =
      (fun t : Nat × Nat × List EdgeData => decide (t.1 = u) && decide (t.2.1 = v)) := rfl
  rw [hcomp]
  rcases h : G.adj.find? (fun t => decide (t.1 = u) && decide (t.2.1 = v)) with _ | t
  · rw [h]
    simp
  · rw [h]
    have hpt := List.find?_some h
    simp only [Bool.and_eq_true, decide_eq_true_eq] at hpt
    simp [hpt.1, hpt.2]

lemma neighbors_add_pollution (G : Graph) (u : Nat) :
    (add_pollution_weights G).neighbors u = G.neighbors u := by
  unfold Graph.neighbors add_pollution_weights
  rw [List.filterMap_map]
  congr 1
  funext t
  rcases t with ⟨a, b, es⟩
  rcases hes : es with _ | ⟨e, es'⟩ <;> simp

lemma neighbors_edgesBetween {G : Graph} {u v : Nat} (hadj : G.AdjOK)
    (h : v ∈ G.neighbors u) : G.edgesBetween u v ≠ [] := by
  unfold Graph.neighbors at h
  rw [List.mem_filterMap] at h
  obtain ⟨t, ht, hv⟩ := h
  by_cases hc : t.1 = u ∧ t.2.2 ≠ []
  · rw [if_pos hc] at hv
    unfold Graph.edgesBetween
    rcases hf : G.adj.find? (fun s => decide (s.1 = u) && decide (s.2.1 = v)) with _ | s
    · exfalso
      have hnone := List.find?_eq_none.mp hf t ht
      simp only [Bool.and_eq_true, decide_eq_true_eq, not_and] at hnone
      exact hnone hc.1 (Option.some.inj hv)
    · rw [hf]
      have hmem := List.mem_of_find?_eq_some hf
      simpa using hadj s hmem
  · rw [if_neg hc] at hv
    cases hv

lemma speedOf_bounds (hw : String) : 0 < speedOf hw ∧ speedOf hw ≤ 80 := by
  unfold speedOf slookup
  rcases h : speed_limits_kmh.find? (fun p => decide (p.1 = hw)) with _ | p
  · rw [h]
    norm_num
  · rw [h]
    have hp := List.mem_of_find?_eq_some h
    simp only [speed_limits_kmh, List.mem_cons, List.not_mem_nil, or_false] at hp
    rcases hp with h1 | h1 | h1 | h1 | h1 | h1 | h1 | h1 | h1 | h1 | h1 | h1 | h1 | h1 | h1 <;>
      subst h1 <;> norm_num

lemma factorOf_ge_one (hw : String) : 1 ≤ factorOf hw := by
  unfold factorOf slookup
  rcases h : POLLUTION_FACTORS.find? (fun p => decide (p.1 = hw)) with _ | p
  · rw [h]
    norm_num
  · rw [h]
    have hp := List.mem_of_find?_eq_some h
    simp only [POLLUTION_FACTORS, List.mem_cons, List.not_mem_nil, or_false] at hp
    rcases hp with h1 | h1 | h1 | h1 | h1 | h1 | h1 | h1 | h1 | h1 | h1 | h1 | h1 | h1 | h1 <;>
      subst h1 <;> norm_num

lemma edge0_add_pollution {G : Graph} {u v : Nat} (hadj : G.AdjOK)
    (hv : v ∈ G.neighbors u) :
    edge0 (add_pollution_weights G) u v = processEdge G u v (edge0 G u v) := by
  unfold edge0
  rw [edgesBetween_add_pollution]
  rcases hx : G.edgesBetween u v with _ | ⟨e, es⟩
  · exact absurd hx (neighbors_edgesBetween hadj hv)
  · simp

lemma time_cost_bound {G : Graph} (d : Nat → Nat → ℚ) {u v : Nat} (hadj : G.AdjOK)
    (hv : v ∈ G.neighbors u) (hd0 : 0 ≤ d u v)
    (hlen : d u v ≤ (edge0 G u v).length?.getD 100) :
    d u v ≤ MAX_SPEED_MPS * cost0 (add_pollution_weights G) "time" u v := by
  rw [cost0, edge0_add_pollution hadj hv]
  have hc : edge_cost (processEdge G u v (edge0 G u v)) "time" =
      (edge0 G u v).length?.getD 100 / 1000 / speedOf ((edge0 G u v).highway?.getD "default") * 3600 := by
    simp [processEdge, edge_cost, EdgeData.get_time]
  rw [hc]
  obtain ⟨hs0, hs80⟩ := speedOf_bounds ((edge0 G u v).highway?.getD "default")
  set len := (edge0 G u v).length?.getD 100 with hlen_def
  set s := speedOf ((edge0 G u v).highway?.getD "default") with hs_def
  have hlen0 : (0 : ℚ) ≤ len := le_trans hd0 hlen
  have hM : MAX_SPEED_MPS * (len / 1000 / s * 3600) = 80 * len / s := by
    unfold MAX_SPEED_MPS
    field_simp
    ring
  rw [hM]
  have h1 : len ≤ 80 * len / s := by
    rw [le_div_iff hs0]
    nlinarith
  linarith

lemma pollution_cost_bound {G : Graph} (d : Nat → Nat → ℚ) {u v : Nat} (hadj : G.AdjOK)
    (hv : v ∈ G.neighbors u) (hd0 : 0 ≤ d u v)
    (hlen : d u v ≤ (edge0 G u v).length?.getD 100) :
    d u v ≤ 1 * cost0 (add_pollution_weights G) "pollution" u v := by
  rw [cost0, edge0_add_pollution hadj hv, one_mul]
  have hc : edge_cost (processEdge G u v (edge0 G u v)) "pollution" =
      (edge0 G u v).length?.getD 100 * factorOf ((edge0 G u v).highway?.getD "default") *
        (if G.degree u > 2 ∨ G.degree v > 2 then (1.1 : ℚ) else 1.0) := by
    simp [processEdge, edge_cost, EdgeData.get_pollution]
  rw [hc]
  have hf := factorOf_ge_one ((edge0 G u v).highway?.getD "default")
  have hpen : (1 : ℚ) ≤ (if G.degree u > 2 ∨ G.degree v > 2 then (1.1 : ℚ) else 1.0) := by
    split <;> norm_num
  set len := (edge0 G u v).length?.getD 100
  set f := factorOf ((edge0 G u v).highway?.getD "default")
  set pen := (if G.degree u > 2 ∨ G.degree v > 2 then (1.1 : ℚ) else 1.0)
  have hlen0 : (0 : ℚ) ≤ len := le_trans hd0 hlen
  have hf0 : (0 : ℚ) ≤ f := le_trans zero_le_one hf
  have h1 : len * 1 ≤ len * f := mul_le_mul_of_nonneg_left hf hlen0
  have h2 : len * f * 1 ≤ len * f * pen := mul_le_mul_of_nonneg_left hpen (mul_nonneg hlen0 hf0)
  calc d u v ≤ len := hlen
    _ = len * 1 := by ring
    _ ≤ len * f := h1
    _ = len * f * 1 := by ring
    _ ≤ len * f * pen := h2

lemma dist_le_mul_pathCost (G : Graph) (w : String) (d : Nat → Nat → ℚ) (c : ℚ) (goal : Nat)
    (hdd : ∀ a, d a a = 0)
    (htri : ∀ a b x, d a x ≤ d a b + d b x)
    (hedge : ∀ u v, v ∈ G.neighbors u → d u v ≤ c * cost0 G w u v) :
    ∀ p n, List.Chain' (fun a b => b ∈ G.neighbors a) p → p.head? = some n →
      p.getLast? = some goal → d n goal ≤ c * pathCost0 G w p := by
  intro p
  induction p with
  | nil => intro n _ hh _; simp at hh
  | cons a rest ih =>
    intro n hchain hhead hlast
    simp only [List.head?_cons, Option.some.injEq] at hhead
    subst hhead
    cases rest with
    | nil =>
      simp only [List.getLast?_singleton, Option.some.injEq] at hlast
      subst hlast
      rw [hdd]
      simp [pathCost0]
    | cons b rest' =>
      rw [List.chain'_cons] at hchain
      obtain ⟨hab, hchain'⟩ := hchain
      have hlast' : (b :: rest').getLast? = some goal := by
        rwa [List.getLast?_cons_cons] at hlast
      have ihb := ih b hchain' rfl hlast'
      have htri' := htri a b goal
      have hedge' := hedge a b hab
      have hpc : pathCost0 G w (a :: b :: rest') = cost0 G w a b + pathCost0 G w (b :: rest') := rfl
      rw [hpc, mul_add]
      linarith

/-- C2: for every node and both criteria, the heuristic the search computes
(haversine over `MAX_SPEED_MPS` for `time`, haversine times the minimum
multiplier 1.0 for `pollution`) never exceeds the cost of any path to the
goal — hence never exceeds the true minimum remaining cost — on any graph
weighted by `add_pollution_weights` (time = length/speed with every scheme
speed ≤ 80 km/h; pollution = length × multiplier × intersection penalty with
every multiplier ≥ 1 and penalty ≥ 1), provided the abstracted haversine `d`
is a metric-like lower bound on edge lengths: `d a a = 0`, nonnegative,
triangle inequality, and every edge's effective length at least `d` of its
endpoints. -/
theorem heuristic_admissible (G : Graph) (d : Nat → Nat → ℚ) (goal : Nat)
    (hadj : G.AdjOK)
    (hdd : ∀ a, d a a = 0)
    (hnn : ∀ a b, 0 ≤ d a b)
    (htri : ∀ a b x, d a x ≤ d a b + d b x)
    (hlen : ∀ u v, v ∈ G.neighbors u → d u v ≤ (edge0 G u v).length?.getD 100) :
    ∀ (n : Nat) (p : List Nat),
      List.Chain' (fun a b => b ∈ (add_pollution_weights G).neighbors a) p →
      p.head? = some n → p.getLast? = some goal →
      hscore (fun x => d x goal) "time" n ≤ pathCost0 (add_pollution_weights G) "time" p ∧
      hscore (fun x => d x goal) "pollution" n ≤
        pathCost0 (add_pollution_weights G) "pollution" p := by
  intro n p hchain hhead hlast
  have hchainG : List.Chain' (fun a b => b ∈ (add_pollution_weights G).neighbors a) p =
      List.Chain' (fun a b => b ∈ G.neighbors a) p := by
    congr 1
    funext a b
    rw [neighbors_add_pollution]
  rw [hchainG] at hchain
  have hchain' : List.Chain' (fun a b => b ∈ (add_pollution_weights G).neighbors a) p := by
    rw [hchainG]; exact hchain
  constructor
  · have hedge : ∀ u v, v ∈ (add_pollution_weights G).neighbors u →
        d u v ≤ MAX_SPEED_MPS * cost0 (add_pollution_weights G) "time" u v := by
      intro u v hv
      rw [neighbors_add_pollution] at hv
      exact time_cost_bound d hadj hv (hnn u v) (hlen u v hv)
    have h := dist_le_mul_pathCost (add_pollution_weights G) "time" d MAX_SPEED_MPS goal
      hdd htri hedge p n hchain' hhead hlast
    have hM : (0 : ℚ) < MAX_SPEED_MPS := by norm_num [MAX_SPEED_MPS]
    have hsc : hscore (fun x => d x goal) "time" n = d n goal / MAX_SPEED_MPS := by
      simp [hscore]
    rw [hsc, div_le_iff hM]
    linarith
  · have hedge : ∀ u v, v ∈ (add_pollution_weights G).neighbors u →
        d u v ≤ 1 * cost0 (add_pollution_weights G) "pollution" u v := by
      intro u v hv
      rw [neighbors_add_pollution] at hv
      exact pollution_cost_bound d hadj hv (hnn u v) (hlen u v hv)
    have h := dist_le_mul_pathCost (add_pollution_weights G) "pollution" d 1 goal
      hdd htri hedge p n hchain' hhead hlast
    have hsc : hscore (fun x => d x goal) "pollution" n = d n goal := by
      simp [hscore]
    rw [hsc]
    linarith

theorem heuristic_admissible_witness :
    hscore hdistZero "time" 1 ≤ pathCost0 (add_pollution_weights lineGraph4) "time" [1, 2, 3, 4] ∧
    hscore hdistZero "pollution" 1 ≤
      pathCost0 (add_pollution_weights lineGraph4) "pollution" [1, 2, 3, 4] := by
  have hadj : lineGraph4.AdjOK := by with_unfolding_all decide
  have hchain : List.Chain' (fun a b => b ∈ (add_pollution_weights lineGraph4).neighbors a)
      [1, 2, 3, 4] := by
    rw [List.chain'_cons, List.chain'_cons, List.chain'_cons]
    refine ⟨?_, ?_, ?_, List.chain'_singleton _⟩ <;>
      rw [neighbors_add_pollution] <;> with_unfolding_all decide
  have hlen : ∀ u v, v ∈ lineGraph4.neighbors u →
      (fun _ _ => (0 : ℚ)) u v ≤ (edge0 lineGraph4 u v).length?.getD 100 := by
    intro u v _
    show (0 : ℚ) ≤ (edge0 lineGraph4 u v).length?.getD 100
    unfold edge0 Graph.edgesBetween
    rcases h : lineGraph4.adj.find? (fun t => decide (t.1 = u) && decide (t.2.1 = v)) with _ | t
    · rw [h]
      norm_num [defaultEdge]
    · rw [h]
      have hmem := List.mem_of_find?_eq_some h
      simp only [lineGraph4, List.mem_cons, List.not_mem_nil, or_false] at hmem
      rcases hmem with h1 | h1 | h1 <;> subst h1 <;> norm_num
  exact heuristic_admissible lineGraph4 (fun _ _ => 0) 4 hadj (fun _ => rfl)
    (fun _ _ => le_refl 0) (fun _ _ _ => by norm_num) hlen 1 [1, 2, 3, 4] hchain rfl
    (by with_unfolding_all decide)

/-! ## Loop invariant: relaxation preserves it -/

lemma alookup_cons {α : Type} (k' : Nat) (a : α) (l : List (Nat × α)) (k : Nat) :
    alookup ((k', a) :: l) k = if k' = k then some a else alookup l k := by
  simp only [alookup, List.find?_cons]
  by_cases h : k' = k <;> simp [h]

lemma relaxStep_closed_set (G : Graph) (hdist : Nat → ℚ) (weight : String) (cur : Nat)
    (curG : ℚ) (st : AState) (nb : Nat) :
    (relaxStep G hdist weight cur curG st nb).closed_set = st.closed_set := by
  unfold relaxStep
  split
  · rfl
  · split <;> rfl

lemma relaxStep_explored_nodes (G : Graph) (hdist : Nat → ℚ) (weight : String) (cur : Nat)
    (curG : ℚ) (st : AState) (nb : Nat) :
    (relaxStep G hdist weight cur curG st nb).explored_nodes = st.explored_nodes := by
  unfold relaxStep
  split
  · rfl
  · split <;> rfl

lemma relaxStep_cases (G : Graph) (hdist : Nat → ℚ) (weight : String) (cur : Nat)
    (curG : ℚ) (st : AState) (nb : Nat) :
    relaxStep G hdist weight cur curG st nb = st ∨
    (nb ∉ st.closed_set ∧
      improves (alookup st.g_scores nb) (curG + cost0 G weight cur nb) ∧
      relaxStep G hdist weight cur curG st nb =
        { st with
          came_from := (nb, cur) :: st.came_from
          g_scores := (nb, curG + cost0 G weight cur nb) :: st.g_scores
          explored_edges := st.explored_edges ++ [(cur, nb)]
          open_set := heappush st.open_set
            (curG + cost0 G weight cur nb + hscore hdist weight nb,
              curG + cost0 G weight cur nb, nb) }) := by
  unfold relaxStep
  split
  · exact Or.inl rfl
  · rename_i hncl
    split
    · rename_i himp
      exact Or.inr ⟨hncl, himp, rfl⟩
    · exact Or.inl rfl

lemma relaxStep_g_closed {G : Graph} {hdist : Nat → ℚ} {weight : String} {cur : Nat}
    {curG : ℚ} {st : AState} {nb x : Nat} (hx : x ∈ st.closed_set) :
    alookup (relaxStep G hdist weight cur curG st nb).g_scores x =
      alookup st.g_scores x := by
  rcases relaxStep_cases G hdist weight cur curG st nb with heq | ⟨hncl, _, heq⟩
  · rw [heq]
  · rw [heq]
    have hne : nb ≠ x := fun h => hncl (h ▸ hx)
    simp only [alookup_cons, if_neg hne]

lemma relaxStep_inv {G : Graph} {hdist : Nat → ℚ} {weight : String} {startN : Nat}
    {st : AState} {cur : Nat} {curG : ℚ} {nb : Nat}
    (inv : AInv G hdist weight startN st)
    (hcur : cur ∈ st.closed_set)
    (hg : alookup st.g_scores cur = some curG)
    (hnb : nb ∈ G.neighbors cur) :
    AInv G hdist weight startN (relaxStep G hdist weight cur curG st nb) := by
  rcases relaxStep_cases G hdist weight cur curG st nb with heq | ⟨hncl, himp, heq⟩
  · rw [heq]; exact inv
  · rw [heq]
    have hnbs : nb ≠ startN := fun h => hncl (h ▸ inv.startClosed)
    have hnbcur : nb ≠ cur := fun h => hncl (h ▸ hcur)
    have hlg_ne : ∀ x, nb ≠ x →
        alookup ((nb, curG + cost0 G weight cur nb) :: st.g_scores) x =
          alookup st.g_scores x := by
      intro x hx
      rw [alookup_cons, if_neg hx]
    have hlg_nb : alookup ((nb, curG + cost0 G weight cur nb) :: st.g_scores) nb =
        some (curG + cost0 G weight cur nb) := by
      rw [alookup_cons, if_pos rfl]
    have hlcf_ne : ∀ x, nb ≠ x →
        alookup ((nb, cur) :: st.came_from) x = alookup st.came_from x := by
      intro x hx
      rw [alookup_cons, if_neg hx]
    have hlcf_nb : alookup ((nb, cur) :: st.came_from) nb = some cur := by
      rw [alookup_cons, if_pos rfl]
    exact {
      startClosed := inv.startClosed
      gStart := by
        rw [hlg_ne startN hnbs]
        exact inv.gStart
      cfStart := by
        rw [hlcf_ne startN hnbs]
        exact inv.cfStart
      openNotStart := by
        intro e he
        rcases List.mem_append.mp he with he | he
        · exact inv.openNotStart e he
        · rw [List.mem_singleton] at he
          subst he
          exact hnbs
      openG := by
        intro e he
        rcases List.mem_append.mp he with he | he
        · obtain ⟨gx, hgx, hle, hf⟩ := inv.openG e he
          by_cases hx : nb = e.2.2
          · rw [← hx] at hgx
            rw [hgx] at himp
            refine ⟨curG + cost0 G weight cur nb, ?_, ?_, hf⟩
            · rw [← hx, hlg_nb]
            · exact le_trans (le_of_lt himp) hle
          · exact ⟨gx, by rw [hlg_ne _ hx]; exact hgx, hle, hf⟩
        · rw [List.mem_singleton] at he
          subst he
          exact ⟨curG + cost0 G weight cur nb, hlg_nb, le_refl _, rfl⟩
      bestInOpen := by
        intro x hx gx hgx
        by_cases hxn : nb = x
        · subst hxn
          rw [hlg_nb] at hgx
          obtain rfl : curG + cost0 G weight cur nb = gx := Option.some.inj hgx
          exact List.mem_append.mpr (Or.inr (List.mem_singleton.mpr rfl))
        · rw [hlg_ne _ hxn] at hgx
          exact List.mem_append.mpr (Or.inl (inv.bestInOpen x hx gx hgx))
      cfSpec := by
        intro x p hxp
        by_cases hxn : nb = x
        · subst hxn
          rw [hlcf_nb] at hxp
          obtain rfl : cur = p := Option.some.inj hxp
          refine ⟨hcur, hnb, curG, ?_, ?_⟩
          · rw [hlg_ne _ hnbcur]
            exact hg
          · rw [hlg_nb]
        · rw [hlcf_ne _ hxn] at hxp
          obtain ⟨hpcl, hxnbp, gp, hgp, hgx⟩ := inv.cfSpec x p hxp
          have hpn : nb ≠ p := fun h => hncl (h ▸ hpcl)
          exact ⟨hpcl, hxnbp, gp, by rw [hlg_ne _ hpn]; exact hgp,
            by rw [hlg_ne _ hxn]; exact hgx⟩
      gTotal := by
        intro x gx hgx
        by_cases hxn : nb = x
        · subst hxn
          right
          rw [hlcf_nb]
          exact Option.some_ne_none _
        · rw [hlg_ne _ hxn] at hgx
          rcases inv.gTotal x gx hgx with h | h
          · exact Or.inl h
          · right
            rw [hlcf_ne _ hxn]
            exact h
      closedNodup := inv.closedNodup
      cfIdx := by
        intro x p hxp hxcl
        by_cases hxn : nb = x
        · subst hxn
          exact absurd hxcl hncl
        · rw [hlcf_ne _ hxn] at hxp
          exact inv.cfIdx x p hxp hxcl
      closedG := by
        intro x hxcl
        obtain ⟨gx, hgx⟩ := inv.closedG x hxcl
        have hxn : nb ≠ x := fun h => hncl (h ▸ hxcl)
        exact ⟨gx, by rw [hlg_ne _ hxn]; exact hgx⟩
      explNodup := inv.explNodup
      explClosed := inv.explClosed
      openReach := by
        intro e he
        rcases List.mem_append.mp he with he | he
        · exact inv.openReach e he
        · rw [List.mem_singleton] at he
          subst he
          exact Reach.step cur nb (inv.closedReach cur hcur) hnb
      closedReach := inv.closedReach }

lemma relaxList_inv {G : Graph} {hdist : Nat → ℚ} {weight : String} {startN cur : Nat}
    {curG : ℚ} :
    ∀ (l : List Nat) (st : AState), (∀ nb ∈ l, nb ∈ G.neighbors cur) →
      AInv G hdist weight startN st → cur ∈ st.closed_set →
      alookup st.g_scores cur = some curG →
      AInv G hdist weight startN (l.foldl (relaxStep G hdist weight cur curG) st) ∧
      (l.foldl (relaxStep G hdist weight cur curG) st).closed_set = st.closed_set ∧
      (l.foldl (relaxStep G hdist weight cur curG) st).explored_nodes =
        st.explored_nodes := by
  intro l
  induction l with
  | nil => intro st _ inv _ _; exact ⟨inv, rfl, rfl⟩
  | cons nb rest ih =>
    intro st hmem inv hcur hg
    simp only [List.foldl_cons]
    have h1 := relaxStep_inv inv hcur hg (hmem nb (List.mem_cons_self _ _))
    have hcl := relaxStep_closed_set G hdist weight cur curG st nb
    have hexp := relaxStep_explored_nodes G hdist weight cur curG st nb
    have hgc := @relaxStep_g_closed G hdist weight cur curG st nb cur hcur
    obtain ⟨ha, hb, hc⟩ := ih (relaxStep G hdist weight cur curG st nb)
      (fun x hx => hmem x (List.mem_cons_of_mem _ hx)) h1
      (hcl ▸ hcur) (hgc.trans hg)
    exact ⟨ha, hb.trans hcl, hc.trans hexp⟩

lemma relaxAll_inv {G : Graph} {hdist : Nat → ℚ} {weight : String} {startN cur : Nat}
    {curG : ℚ} {st : AState}
    (inv : AInv G hdist weight startN st) (hcur : cur ∈ st.closed_set)
    (hg : alookup st.g_scores cur = some curG) :
    AInv G hdist weight startN (relaxAll G hdist weight cur curG st) ∧
    (relaxAll G hdist weight cur curG st).closed_set = st.closed_set ∧
    (relaxAll G hdist weight cur curG st).explored_nodes = st.explored_nodes :=
  relaxList_inv (G.neighbors cur) st (fun _ hx => hx) inv hcur hg

/-! ## Pop analysis: the first pop of a node carries its recorded score -/

lemma mem_rest_of_ne {l : List (ℚ × ℚ × Nat)} {e : ℚ × ℚ × Nat}
    {rest : List (ℚ × ℚ × Nat)} {x : ℚ × ℚ × Nat}
    (hpop : popMin l = some (e, rest)) (hx : x ∈ l) (hne : x ≠ e) : x ∈ rest := by
  have hperm := popMin_perm hpop
  rcases List.mem_cons.mp (hperm.mem_iff.mp hx) with h | h
  · exact absurd h hne
  · exact h

lemma popped_g_eq {G : Graph} {hdist : Nat → ℚ} {weight : String} {startN : Nat}
    {st : AState} (inv : AInv G hdist weight startN st)
    {f g : ℚ} {cur : Nat} {rest : List (ℚ × ℚ × Nat)}
    (hpop : popMin st.open_set = some ((f, g, cur), rest))
    (hncl : cur ∉ st.closed_set) :
    alookup st.g_scores cur = some g := by
  have hmem := popMin_mem hpop
  obtain ⟨gx, hgx, hle, hf⟩ := inv.openG _ hmem
  rcases eq_or_lt_of_le hle with heq | hlt
  · rw [hgx, heq]
  · exfalso
    have hbest := inv.bestInOpen cur hncl gx hgx
    have hminE := (popMin_spec hpop).2 _ hbest
    rw [entryLE_iff] at hminE
    simp only at hminE hf
    rcases hminE with h | ⟨h, hrest⟩
    · rw [hf] at h
      have : hscore hdist weight cur < hscore hdist weight cur := by linarith
      exact absurd this (lt_irrefl _)
    · rw [hf] at h
      have hgeq : g = gx := by linarith
      rw [hgeq] at hlt
      exact absurd hlt (lt_irrefl _)

/-- Dropping a stale (already-closed) popped entry preserves the invariant. -/
lemma skip_step_inv {G : Graph} {hdist : Nat → ℚ} {weight : String} {startN : Nat}
    {st : AState} (inv : AInv G hdist weight startN st)
    {e : ℚ × ℚ × Nat} {rest : List (ℚ × ℚ × Nat)}
    (hpop : popMin st.open_set = some (e, rest))
    (hcl : e.2.2 ∈ st.closed_set) :
    AInv G hdist weight startN { st with open_set := rest } := by
  have hsub : ∀ x ∈ rest, x ∈ st.open_set := popMin_rest_subset hpop
  exact {
    startClosed := inv.startClosed
    gStart := inv.gStart
    cfStart := inv.cfStart
    openNotStart := fun x hx => inv.openNotStart x (hsub x hx)
    openG := fun x hx => inv.openG x (hsub x hx)
    bestInOpen := by
      intro x hx gx hgx
      have hw := inv.bestInOpen x hx gx hgx
      refine mem_rest_of_ne hpop hw ?_
      intro hcontra
      apply hx
      have : x = e.2.2 := by rw [← hcontra]
      rw [this]
      exact hcl
    cfSpec := inv.cfSpec
    gTotal := inv.gTotal
    closedNodup := inv.closedNodup
    cfIdx := inv.cfIdx
    closedG := inv.closedG
    explNodup := inv.explNodup
    explClosed := inv.explClosed
    openReach := fun x hx => inv.openReach x (hsub x hx)
    closedReach := inv.closedReach }

/-- Closing a freshly popped node (append it to the closed set and the
explored trace, drop its entry from the frontier) preserves the invariant. -/
lemma close_step_inv {G : Graph} {hdist : Nat → ℚ} {weight : String} {startN : Nat}
    {st : AState} (inv : AInv G hdist weight startN st)
    {f g : ℚ} {cur : Nat} {rest : List (ℚ × ℚ × Nat)}
    (hpop : popMin st.open_set = some ((f, g, cur), rest))
    (hncl : cur ∉ st.closed_set) :
    AInv G hdist weight startN
      { st with
        open_set := rest
        explored_nodes := st.explored_nodes ++ [cur]
        closed_set := st.closed_set ++ [cur] } := by
  have hsub : ∀ x ∈ rest, x ∈ st.open_set := popMin_rest_subset hpop
  have hgcur := popped_g_eq inv hpop hncl
  have hreach : Reach G startN cur := inv.openReach _ (popMin_mem hpop)
  exact {
    startClosed := List.mem_append.mpr (Or.inl inv.startClosed)
    gStart := inv.gStart
    cfStart := inv.cfStart
    openNotStart := fun x hx => inv.openNotStart x (hsub x hx)
    openG := fun x hx => inv.openG x (hsub x hx)
    bestInOpen := by
      intro x hx gx hgx
      have hxo : x ∉ st.closed_set := fun h => hx (List.mem_append.mpr (Or.inl h))
      have hxc : x ≠ cur := by
        intro h
        exact hx (List.mem_append.mpr (Or.inr (List.mem_singleton.mpr h)))
      have hw := inv.bestInOpen x hxo gx hgx
      refine mem_rest_of_ne hpop hw ?_
      intro hcontra
      apply hxc
      have := congrArg (fun t : ℚ × ℚ × Nat => t.2.2) hcontra
      simpa using this
    cfSpec := by
      intro x p hxp
      obtain ⟨hpcl, hxnb, gp, hgp, hgx⟩ := inv.cfSpec x p hxp
      exact ⟨List.mem_append.mpr (Or.inl hpcl), hxnb, gp, hgp, hgx⟩
    gTotal := inv.gTotal
    closedNodup := by
      rw [List.nodup_append]
      exact ⟨inv.closedNodup, List.nodup_singleton _,
        fun a ha hb => hncl ((List.mem_singleton.mp hb) ▸ ha)⟩
    cfIdx := by
      intro x p hxp hxcl
      obtain ⟨hpcl, _, _⟩ := inv.cfSpec x p hxp
      rcases List.mem_append.mp hxcl with hx | hx
      · rw [List.indexOf_append_of_mem hpcl, List.indexOf_append_of_mem hx]
        exact inv.cfIdx x p hxp hx
      · rw [List.mem_singleton] at hx
        subst hx
        rw [List.indexOf_append_of_mem hpcl, List.indexOf_append_of_not_mem hncl]
        calc st.closed_set.indexOf p < st.closed_set.length :=
              List.indexOf_lt_length.mpr hpcl
          _ ≤ st.closed_set.length + List.indexOf x [x] := Nat.le_add_right _ _
    closedG := by
      intro x hxcl
      rcases List.mem_append.mp hxcl with hx | hx
      · exact inv.closedG x hx
      · rw [List.mem_singleton] at hx
        subst hx
        exact ⟨g, hgcur⟩
    explNodup := by
      rw [List.nodup_append]
      refine ⟨inv.explNodup, List.nodup_singleton _, ?_⟩
      intro a ha hb
      rw [List.mem_singleton] at hb
      subst hb
      exact hncl (inv.explClosed a ha)
    explClosed := by
      intro x hx
      rcases List.mem_append.mp hx with hx | hx
      · exact List.mem_append.mpr (Or.inl (inv.explClosed x hx))
      · exact List.mem_append.mpr (Or.inr hx)
    openReach := fun x hx => inv.openReach x (hsub x hx)
    closedReach := by
      intro x hx
      rcases List.mem_append.mp hx with hx | hx
      · exact inv.closedReach x hx
      · rw [List.mem_singleton] at hx
        subst hx
        exact hreach }

/-! ## The first iteration closes the start node and establishes the invariant -/

lemma alookup_nil {α : Type} (k : Nat) : alookup ([] : List (Nat × α)) k = none := by
  simp [alookup]

lemma alookup_singleton {α : Type} (s : Nat) (a : α) (x : Nat) :
    alookup [(s, a)] x = if s = x then some a else none := by
  rw [alookup_cons, alookup_nil]

lemma searchFuel_succ (G : Graph) :
    searchFuel G =
      ((G.nodeIds.toFinset.sum fun x => (G.neighbors x).length + 1) + 1) + 1 := rfl

lemma init_inv (G : Graph) (hdist : Nat → ℚ) (weight : String) (s : Nat) :
    AInv G hdist weight s ⟨[], [], [(s, 0)], [s], [], [s]⟩ := by
  refine {
    startClosed := List.mem_singleton.mpr rfl
    gStart := by rw [alookup_singleton, if_pos rfl]
    cfStart := alookup_nil s
    openNotStart := by intro x hx; simp at hx
    openG := by intro x hx; simp at hx
    bestInOpen := ?_
    cfSpec := by intro x p h; rw [alookup_nil] at h; cases h
    gTotal := ?_
    closedNodup := List.nodup_singleton s
    cfIdx := by intro x p h; rw [alookup_nil] at h; cases h
    closedG := ?_
    explNodup := List.nodup_singleton s
    explClosed := fun x hx => hx
    openReach := by intro x hx; simp at hx
    closedReach := ?_ }
  · intro x hx gx hgx
    rw [alookup_singleton] at hgx
    by_cases h : s = x
    · exact absurd (List.mem_singleton.mpr h.symm) hx
    · rw [if_neg h] at hgx
      cases hgx
  · intro x gx hgx
    rw [alookup_singleton] at hgx
    by_cases h : s = x
    · exact Or.inl h.symm
    · rw [if_neg h] at hgx
      cases hgx
  · intro x hx
    rw [List.mem_singleton] at hx
    subst hx
    exact ⟨0, by rw [alookup_singleton, if_pos rfl]⟩
  · intro x hx
    rw [List.mem_singleton] at hx
    subst hx
    exact Reach.refl

lemma init_relax_inv (G : Graph) (hdist : Nat → ℚ) (weight : String) (s : Nat) :
    AInv G hdist weight s
      (relaxAll G hdist weight s 0 ⟨[], [], [(s, 0)], [s], [], [s]⟩) :=
  (relaxAll_inv (init_inv G hdist weight s) (List.mem_singleton.mpr rfl)
    (by rw [alookup_singleton, if_pos rfl])).1

lemma astarLoop_first_step (G : Graph) (hdist : Nat → ℚ) (s e : Nat) (w : String)
    (fuel : Nat) (hne : s ≠ e) :
    astarLoop G hdist s e w (fuel + 1) (initState s) =
      astarLoop G hdist s e w fuel
        (relaxAll G hdist w s 0 ⟨[], [], [(s, 0)], [s], [], [s]⟩) := by
  simp [astarLoop, initState, popMin, hne]

/-! ## Reconstruction of the returned path -/

lemma pathCost0_concat (G : Graph) (w : String) :
    ∀ (l : List Nat) (a x : Nat), l.getLast? = some a →
      pathCost0 G w (l ++ [x]) = pathCost0 G w l + cost0 G w a x := by
  intro l
  induction l with
  | nil => intro a x h; simp at h
  | cons b rest ih =>
    intro a x h
    cases rest with
    | nil =>
      rw [List.getLast?_singleton] at h
      obtain rfl := Option.some.inj h
      show pathCost0 G w [b, x] = pathCost0 G w [b] + cost0 G w b x
      simp [pathCost0]
    | cons c rest' =>
      rw [List.getLast?_cons_cons] at h
      have hrec := ih a x h
      have h1 : pathCost0 G w ((b :: c :: rest') ++ [x]) =
          cost0 G w b c + pathCost0 G w ((c :: rest') ++ [x]) := rfl
      have h2 : pathCost0 G w (b :: c :: rest') =
          cost0 G w b c + pathCost0 G w (c :: rest') := rfl
      rw [h1, hrec, h2]
      ring

lemma alookup_isSome_key_mem {α : Type} {l : List (Nat × α)} {k : Nat} {a : α}
    (h : alookup l k = some a) : k ∈ l.map Prod.fst := by
  unfold alookup at h
  rcases hf : l.find? (fun p => decide (p.1 = k)) with _ | p
  · rw [hf] at h; cases h
  · have hm := List.mem_of_find?_eq_some hf
    have hp := List.find?_some hf
    rw [decide_eq_true_eq] at hp
    rw [← hp]
    exact List.mem_map_of_mem _ hm

lemma closed_card_le_cf {G : Graph} {hdist : Nat → ℚ} {weight : String} {s : Nat}
    {st : AState} (inv : AInv G hdist weight s st)
    {e : Nat} (hecl : e ∉ st.closed_set) {ge : ℚ}
    (hge : alookup st.g_scores e = some ge) :
    st.closed_set.length ≤ st.came_from.length := by
  classical
  have hcard : (insert e (st.closed_set.toFinset.erase s)).card = st.closed_set.length := by
    rw [Finset.card_insert_of_not_mem, Finset.card_erase_of_mem]
    · have hc : st.closed_set.toFinset.card = st.closed_set.length :=
        List.toFinset_card_of_nodup inv.closedNodup
      have hpos : 0 < st.closed_set.toFinset.card :=
        Finset.card_pos.mpr ⟨s, List.mem_toFinset.mpr inv.startClosed⟩
      omega
    · exact List.mem_toFinset.mpr inv.startClosed
    · intro hmem
      exact hecl (List.mem_toFinset.mp (Finset.mem_of_mem_erase hmem))
  have hsub : insert e (st.closed_set.toFinset.erase s) ⊆
      (st.came_from.map Prod.fst).toFinset := by
    intro x hx
    rw [Finset.mem_insert] at hx
    rcases hx with rfl | hx
    · rcases inv.gTotal x ge hge with h | h
      · exact absurd (h ▸ inv.startClosed) hecl
      · rcases Option.ne_none_iff_exists'.mp h with ⟨p, hp⟩
        exact List.mem_toFinset.mpr (alookup_isSome_key_mem hp)
    · have hxe := Finset.ne_of_mem_erase hx
      have hxcl := List.mem_toFinset.mp (Finset.mem_of_mem_erase hx)
      obtain ⟨gx, hgx⟩ := inv.closedG x hxcl
      rcases inv.gTotal x gx hgx with h | h
      · exact absurd h hxe
      · rcases Option.ne_none_iff_exists'.mp h with ⟨p, hp⟩
        exact List.mem_toFinset.mpr (alookup_isSome_key_mem hp)
  calc st.closed_set.length = (insert e (st.closed_set.toFinset.erase s)).card := hcard.symm
    _ ≤ (st.came_from.map Prod.fst).toFinset.card := Finset.card_le_card hsub
    _ ≤ (st.came_from.map Prod.fst).length := List.toFinset_card_le _
    _ = st.came_from.length := List.length_map _ _

lemma reconstructAux_sound {G : Graph} {hdist : Nat → ℚ} {weight : String} {s : Nat}
    {st : AState} (inv : AInv G hdist weight s st) :
    ∀ (n : Nat) (x : Nat) (gx : ℚ) (acc : List Nat),
      alookup st.g_scores x = some gx →
      (if x ∈ st.closed_set then st.closed_set.indexOf x + 1
        else st.closed_set.length + 1) ≤ n →
      ∃ tail, reconstructAux st.came_from n x acc = acc ++ tail ∧
        ((tail = [] ∧ x = s) ∨ tail.head? = some x) ∧
        pathCost0 G weight ((tail ++ [s]).reverse) = gx ∧
        List.Chain' (fun a b => b ∈ G.neighbors a) ((tail ++ [s]).reverse) ∧
        ((tail ++ [s]).reverse).getLast? = some x := by
  intro n
  induction n with
  | zero =>
    intro x gx acc _ hm
    exfalso
    split at hm <;> omega
  | succ n ih =>
    intro x gx acc hgx hm
    rcases hcf : alookup st.came_from x with _ | p
    · have hxs : x = s := by
        rcases inv.gTotal x gx hgx with h | h
        · exact h
        · exact absurd hcf h
      subst hxs
      have hgx0 : gx = 0 := by
        have h0 := inv.gStart.symm.trans hgx
        exact (Option.some.inj h0).symm
      refine ⟨[], ?_, Or.inl ⟨rfl, rfl⟩, ?_, ?_, ?_⟩
      · simp [reconstructAux, hcf]
      · simp [pathCost0, hgx0]
      · simpa using List.chain'_singleton x
      · simp
    · obtain ⟨hpcl, hxnb, gp, hgp, hgxeq⟩ := inv.cfSpec x p hcf
      have hgxval : gx = gp + cost0 G weight p x :=
        (Option.some.inj (hgxeq.symm.trans hgx)).symm
      have hmp : (if p ∈ st.closed_set then st.closed_set.indexOf p + 1
          else st.closed_set.length + 1) ≤ n := by
        rw [if_pos hpcl]
        have hlt : st.closed_set.indexOf p < st.closed_set.length :=
          List.indexOf_lt_length.mpr hpcl
        split at hm
        · rename_i hxcl
          have := inv.cfIdx x p hcf hxcl
          omega
        · omega
      obtain ⟨tail', heq', hhead', hcost', hchain', hlast'⟩ := ih p gp (acc ++ [x]) hgp hmp
      have hL : ((x :: tail') ++ [s]).reverse = ((tail' ++ [s]).reverse) ++ [x] := by
        simp
      refine ⟨x :: tail', ?_, Or.inr rfl, ?_, ?_, ?_⟩
      · have hstep : reconstructAux st.came_from (n + 1) x acc =
            reconstructAux st.came_from n p (acc ++ [x]) := by
          simp [reconstructAux, hcf]
        rw [hstep, heq']
        simp
      · rw [hL, pathCost0_concat G weight _ p x hlast', hcost', hgxval]
      · rw [hL, List.chain'_append]
        refine ⟨hchain', List.chain'_singleton x, ?_⟩
        intro a ha b hb
        rw [hlast'] at ha
        simp only [Option.mem_def, List.head?_cons, Option.some.injEq] at ha hb
        rw [← ha, ← hb]
        exact hxnb
      · rw [hL]
        exact List.getLast?_concat _

lemma reconstructPath_sound {G : Graph} {hdist : Nat → ℚ} {weight : String} {s : Nat}
    {st : AState} (inv : AInv G hdist weight s st)
    {e : Nat} (hecl : e ∉ st.closed_set) {ge : ℚ}
    (hge : alookup st.g_scores e = some ge) :
    (reconstructPath st.came_from e s).head? = some s ∧
    (reconstructPath st.came_from e s).getLast? = some e ∧
    List.Chain' (fun a b => b ∈ G.neighbors a) (reconstructPath st.came_from e s) ∧
    pathCost0 G weight (reconstructPath st.came_from e s) = ge := by
  have hes : e ≠ s := fun h => hecl (h ▸ inv.startClosed)
  have hm : (if e ∈ st.closed_set then st.closed_set.indexOf e + 1
      else st.closed_set.length + 1) ≤ st.came_from.length + 1 := by
    rw [if_neg hecl]
    have := closed_card_le_cf inv hecl hge
    omega
  obtain ⟨tail, heq, hhead, hcost, hchain, hlast⟩ :=
    reconstructAux_sound inv (st.came_from.length + 1) e ge [] hge hm
  have htail : tail.head? = some e := by
    rcases hhead with ⟨_, h⟩ | h
    · exact absurd h hes
    · exact h
  unfold reconstructPath
  rw [heq]
  simp only [List.nil_append]
  refine ⟨?_, ?_, hchain, hcost⟩
  · rw [List.head?_reverse]
    exact List.getLast?_concat _
  · rw [List.getLast?_reverse]
    rcases tail with _ | ⟨t0, ts⟩
    · simp at htail
    · rw [List.head?_cons, Option.some.injEq] at htail
      subst htail
      simp

/-! ## Soundness of every terminating run of the search loop -/

lemma astarLoop_sound {G : Graph} {hdist : Nat → ℚ} {s e : Nat} {w : String} :
    ∀ (fuel : Nat) (st : AState) (r : SearchResult),
      AInv G hdist w s st → astarLoop G hdist s e w fuel st = some r →
      (r.path = none ∧ r.cost = ⊤ ∧ r.explored_nodes.Nodup) ∨
      (∃ p, r.path = some p ∧ r.cost = ((pathCost0 G w p : ℚ) : WithTop ℚ) ∧
        r.explored_nodes.Nodup ∧ Reach G s e ∧ p.head? = some s ∧
        p.getLast? = some e ∧ List.Chain' (fun a b => b ∈ G.neighbors a) p) := by
  intro fuel
  induction fuel with
  | zero =>
    intro st r _ h
    simp [astarLoop] at h
  | succ n ih =>
    intro st r inv hrun
    rcases hpop : popMin st.open_set with _ | ⟨⟨f, g, cur⟩, rest⟩
    · simp only [astarLoop, hpop] at hrun
      obtain rfl := Option.some.inj hrun
      exact Or.inl ⟨rfl, rfl, inv.explNodup⟩
    · simp only [astarLoop, hpop] at hrun
      by_cases hcl : cur ∈ st.closed_set
      · rw [if_pos hcl] at hrun
        exact ih _ r (skip_step_inv inv hpop hcl) hrun
      · rw [if_neg hcl] at hrun
        by_cases hend : cur = e
        · rw [if_pos hend] at hrun
          obtain rfl := Option.some.inj hrun
          subst hend
          right
          have hgcur := popped_g_eq inv hpop hcl
          obtain ⟨hh, hl, hch, hpc⟩ := reconstructPath_sound inv hcl hgcur
          refine ⟨reconstructPath st.came_from cur s, rfl, ?_, ?_, ?_, hh, hl, hch⟩
          · rw [hpc]
          · rw [List.nodup_append]
            refine ⟨inv.explNodup, List.nodup_singleton _, ?_⟩
            intro a ha hb
            rw [List.mem_singleton] at hb
            subst hb
            exact hcl (inv.explClosed a ha)
          · exact inv.openReach _ (popMin_mem hpop)
        · rw [if_neg hend] at hrun
          have hinv1 := close_step_inv inv hpop hcl
          have hcur1 : cur ∈ (st.closed_set ++ [cur]) :=
            List.mem_append.mpr (Or.inr (List.mem_singleton.mpr rfl))
          have hg1 := popped_g_eq inv hpop hcl
          obtain ⟨hinv2, _, _⟩ := relaxAll_inv hinv1 hcur1 hg1
          exact ih _ r hinv2 hrun

/-! ## Termination: the supplied fuel always suffices on well-formed graphs -/

lemma neighbors_sub_nodeIds {G : Graph} (hWF : G.WF) {u v : Nat}
    (h : v ∈ G.neighbors u) : v ∈ G.nodeIds := by
  unfold Graph.neighbors at h
  rw [List.mem_filterMap] at h
  obtain ⟨t, ht, hv⟩ := h
  by_cases hc : t.1 = u ∧ t.2.2 ≠ []
  · rw [if_pos hc] at hv
    obtain rfl := Option.some.inj hv
    exact (hWF t ht).2
  · rw [if_neg hc] at hv
    cases hv

lemma relaxList_closed {G : Graph} {hdist : Nat → ℚ} {weight : String} {cur : Nat}
    {curG : ℚ} :
    ∀ (l : List Nat) (st : AState),
      (l.foldl (relaxStep G hdist weight cur curG) st).closed_set = st.closed_set := by
  intro l
  induction l with
  | nil => intro st; rfl
  | cons nb restl ih =>
    intro st
    simp only [List.foldl_cons]
    rw [ih, relaxStep_closed_set]

lemma relaxAll_closed {G : Graph} {hdist : Nat → ℚ} {weight : String} {cur : Nat}
    {curG : ℚ} (st : AState) :
    (relaxAll G hdist weight cur curG st).closed_set = st.closed_set :=
  relaxList_closed _ _

lemma relaxList_open_facts {G : Graph} {hdist : Nat → ℚ} {weight : String} {cur : Nat}
    {curG : ℚ} :
    ∀ (l : List Nat) (st : AState),
      (l.foldl (relaxStep G hdist weight cur curG) st).open_set.length ≤
        st.open_set.length + l.length ∧
      ∀ x ∈ (l.foldl (relaxStep G hdist weight cur curG) st).open_set,
        x ∈ st.open_set ∨ x.2.2 ∈ l := by
  intro l
  induction l with
  | nil =>
    intro st
    exact ⟨by simp, fun x hx => Or.inl hx⟩
  | cons nb restl ih =>
    intro st
    simp only [List.foldl_cons, List.length_cons]
    obtain ⟨hlen, hmem⟩ := ih (relaxStep G hdist weight cur curG st nb)
    have hstep : (relaxStep G hdist weight cur curG st nb).open_set.length ≤
        st.open_set.length + 1 := by
      rcases relaxStep_cases G hdist weight cur curG st nb with heq | ⟨_, _, heq⟩ <;>
        rw [heq] <;> simp [heappush]
    constructor
    · omega
    · intro x hx
      rcases hmem x hx with hx' | hx'
      · rcases relaxStep_cases G hdist weight cur curG st nb with heq | ⟨_, _, heq⟩
        · rw [heq] at hx'
          exact Or.inl hx'
        · rw [heq] at hx'
          rcases List.mem_append.mp hx' with h | h
          · exact Or.inl h
          · rw [List.mem_singleton] at h
            subst h
            exact Or.inr (List.mem_cons_self _ _)
      · exact Or.inr (List.mem_cons_of_mem _ hx')

lemma sdiff_insert_erase {A C : Finset Nat} {c : Nat} :
    A \ (insert c C) = (A \ C).erase c := by
  ext a
  simp only [Finset.mem_sdiff, Finset.mem_insert, Finset.mem_erase]
  tauto

lemma astarLoop_terminates {G : Graph} {hdist : Nat → ℚ} {s e : Nat} {w : String}
    (hWF : G.WF) :
    ∀ (fuel : Nat) (st : AState),
      (∀ x ∈ st.open_set, x.2.2 ∈ G.nodeIds) →
      openMeasure G st < fuel →
      (astarLoop G hdist s e w fuel st).isSome := by
  intro fuel
  induction fuel with
  | zero =>
    intro st _ h
    exact absurd h (Nat.not_lt_zero _)
  | succ n ih =>
    intro st hop hμ
    rcases hpop : popMin st.open_set with _ | ⟨⟨f, g, cur⟩, rest⟩
    · simp [astarLoop, hpop]
    · simp only [astarLoop, hpop]
      have hlen := popMin_length hpop
      by_cases hcl : cur ∈ st.closed_set
      · rw [if_pos hcl]
        apply ih
        · intro x hx
          exact hop x (popMin_rest_subset hpop x hx)
        · unfold openMeasure at hμ ⊢
          set S := ((G.nodeIds.toFinset \ st.closed_set.toFinset).sum
            fun x => (G.neighbors x).length + 1) with hS
          simp only at hμ ⊢
          omega
      · rw [if_neg hcl]
        by_cases hend : cur = e
        · rw [if_pos hend]
          simp
        · rw [if_neg hend]
          apply ih
          · intro x hx
            rcases (relaxList_open_facts (G.neighbors cur) _).2 x hx with h | h
            · exact hop x (popMin_rest_subset hpop x h)
            · exact neighbors_sub_nodeIds hWF h
          · have hcur_node : cur ∈ G.nodeIds := hop _ (popMin_mem hpop)
            unfold openMeasure at hμ ⊢
            rw [relaxAll_closed]
            have hlen2 : (relaxAll G hdist w cur g
                ({ st with
                  open_set := rest
                  explored_nodes := st.explored_nodes ++ [cur]
                  closed_set := st.closed_set ++ [cur] } : AState)).open_set.length ≤
                rest.length + (G.neighbors cur).length :=
              (relaxList_open_facts (G.neighbors cur) _).1
            have htof : (st.closed_set ++ [cur]).toFinset =
                insert cur st.closed_set.toFinset := by
              simp [List.toFinset_append]
              rw [Finset.union_comm]
              simp [Finset.insert_eq]
            rw [htof, sdiff_insert_erase]
            have hcmem : cur ∈ G.nodeIds.toFinset \ st.closed_set.toFinset := by
              rw [Finset.mem_sdiff]
              exact ⟨List.mem_toFinset.mpr hcur_node,
                fun h => hcl (List.mem_toFinset.mp h)⟩
            have hsum := Finset.sum_erase_add
              (G.nodeIds.toFinset \ st.closed_set.toFinset)
              (fun x => (G.neighbors x).length + 1) hcmem
            set S1 := (((G.nodeIds.toFinset \ st.closed_set.toFinset).erase cur).sum
              fun x => (G.neighbors x).length + 1) with hS1
            set S := ((G.nodeIds.toFinset \ st.closed_set.toFinset).sum
              fun x => (G.neighbors x).length + 1) with hS0
            have hsum2 : S1 + ((G.neighbors cur).length + 1) = S := by
              simpa using hsum
            omega

lemma astar_pathfinding_runs {G : Graph} {hdist : Nat → ℚ} {s e : Nat} {w : String}
    (hWF : G.WF) (hs : s ∈ G.nodeIds) :
    ∃ r, astarLoop G hdist s e w (searchFuel G) (initState s) = some r ∧
      astar_pathfinding G hdist s e w = r := by
  have hterm := @astarLoop_terminates G hdist s e w hWF (searchFuel G) (initState s) ?_ ?_
  · rcases Option.isSome_iff_exists.mp hterm with ⟨r, hr⟩
    refine ⟨r, hr, ?_⟩
    unfold astar_pathfinding
    rw [hr]
    rfl
  · intro x hx
    simp only [initState, List.mem_singleton] at hx
    subst hx
    exact hs
  · unfold openMeasure searchFuel initState
    simp only [List.length_singleton, List.toFinset_nil, Finset.sdiff_empty]
    set S := (G.nodeIds.toFinset.sum fun x => (G.neighbors x).length + 1) with hS
    omega

/-- Helper: consecutive-pair form of a `Chain'` adjacency statement. -/
lemma chain'_routePairs {R : Nat → Nat → Prop} :
    ∀ {p : List Nat}, List.Chain' R p → ∀ ab ∈ routePairs p, R ab.1 ab.2 := by
  intro p
  induction p with
  | nil => intro _ ab hab; simp [routePairs] at hab
  | cons a rest ih =>
    intro hch ab hab
    cases rest with
    | nil => simp [routePairs] at hab
    | cons b rest' =>
      rw [List.chain'_cons] at hch
      obtain ⟨hr, hch⟩ := hch
      rw [show routePairs (a :: b :: rest') = (a, b) :: routePairs (b :: rest') from rfl] at hab
      rcases List.mem_cons.mp hab with h | h
      · subst h
        exact hr
      · exact ih hch ab h

lemma pathCost0_eq_attrSum {G : Graph} {w : String} :
    ∀ {p : List Nat},
      (∀ ab ∈ routePairs p, ((edge0 G ab.1 ab.2).get w).isSome) →
      pathCost0 G w p = attrSum G w p := by
  intro p
  induction p with
  | nil => intro _; simp [pathCost0, attrSum, routePairs]
  | cons a rest ih =>
    cases rest with
    | nil => intro _; simp [pathCost0, attrSum, routePairs]
    | cons b rest' =>
      intro h
      have hab := h (a, b) (by
        rw [show routePairs (a :: b :: rest') = (a, b) :: routePairs (b :: rest') from rfl]
        exact List.mem_cons_self _ _)
      have hrest : ∀ ab ∈ routePairs (b :: rest'), ((edge0 G ab.1 ab.2).get w).isSome := by
        intro ab hab'
        refine h ab ?_
        rw [show routePairs (a :: b :: rest') = (a, b) :: routePairs (b :: rest') from rfl]
        exact List.mem_cons_of_mem _ hab'
      have hrec := ih hrest
      have hc : cost0 G w a b = ((edge0 G a b).get w).getD 0 := by
        unfold cost0 edge_cost
        rcases hsome : (edge0 G a b).get w with _ | val
        · rw [hsome] at hab
          simp at hab
        · simp
      have h1 : pathCost0 G w (a :: b :: rest') =
          cost0 G w a b + pathCost0 G w (b :: rest') := rfl
      have h2 : attrSum G w (a :: b :: rest') =
          ((edge0 G a b).get w).getD 0 + attrSum G w (b :: rest') := by
        simp [attrSum, show routePairs (a :: b :: rest') = (a, b) :: routePairs (b :: rest')
          from rfl]
      rw [h1, h2, hrec, hc]

/-- C6: the explored-nodes trace returned by any call of `astar_pathfinding`
(success or failure) contains no node more than once. -/
theorem explored_trace_nodup (G : Graph) (hdist : Nat → ℚ) (s t : Nat) (w : String) :
    (astar_pathfinding G hdist s t w).explored_nodes.Nodup := by
  rcases hr : astarLoop G hdist s t w (searchFuel G) (initState s) with _ | r
  · have hwrap : astar_pathfinding G hdist s t w = ⟨none, ⊤, [], []⟩ := by
      unfold astar_pathfinding
      rw [hr]
      rfl
    rw [hwrap]
    exact List.nodup_nil
  · have hwrap : astar_pathfinding G hdist s t w = r := by
      unfold astar_pathfinding
      rw [hr]
      rfl
    rw [hwrap]
    by_cases hst : s = t
    · subst hst
      rw [searchFuel_succ, astarLoop_start_eq_goal] at hr
      obtain rfl := Option.some.inj hr
      simp
    · rw [searchFuel_succ, astarLoop_first_step G hdist s t w _ hst] at hr
      rcases astarLoop_sound _ _ r (init_relax_inv G hdist w s) hr with
        ⟨_, _, h⟩ | ⟨_, _, _, h, _⟩ <;> exact h

/-- C3: whenever the search returns a path and every consecutive key-0 edge
of that path carries the chosen criterion's attribute, the returned total
cost equals the sum of that attribute over the path's consecutive edges,
recomputed independently with the same key-0 edge selection. -/
theorem cost_consistent (G : Graph) (hdist : Nat → ℚ) (s t : Nat) (w : String)
    (p : List Nat) (hp : (astar_pathfinding G hdist s t w).path = some p)
    (hattr : ∀ ab ∈ routePairs p, ((edge0 G ab.1 ab.2).get w).isSome) :
    (astar_pathfinding G hdist s t w).cost = ((attrSum G w p : ℚ) : WithTop ℚ) := by
  rcases hr : astarLoop G hdist s t w (searchFuel G) (initState s) with _ | r
  · have hwrap : astar_pathfinding G hdist s t w = ⟨none, ⊤, [], []⟩ := by
      unfold astar_pathfinding
      rw [hr]
      rfl
    rw [hwrap] at hp
    simp at hp
  · have hwrap : astar_pathfinding G hdist s t w = r := by
      unfold astar_pathfinding
      rw [hr]
      rfl
    rw [hwrap] at hp ⊢
    by_cases hst : s = t
    · subst hst
      rw [searchFuel_succ, astarLoop_start_eq_goal] at hr
      obtain rfl := Option.some.inj hr
      simp only at hp
      obtain rfl := Option.some.inj hp
      simp [attrSum, routePairs]
    · rw [searchFuel_succ, astarLoop_first_step G hdist s t w _ hst] at hr
      rcases astarLoop_sound _ _ r (init_relax_inv G hdist w s) hr with
        ⟨hnone, _, _⟩ | ⟨p', hp', hc', _, _, _, _, _⟩
      · rw [hnone] at hp
        cases hp
      · rw [hp'] at hp
        obtain rfl := Option.some.inj hp
        rw [hc', pathCost0_eq_attrSum hattr]

theorem cost_consistent_witness :
    (astar_pathfinding lineGraph4 hdistZero 1 4 "time").path = some [1, 2, 3, 4] ∧
    (astar_pathfinding lineGraph4 hdistZero 1 4 "time").cost =
      ((attrSum lineGraph4 "time" [1, 2, 3, 4] : ℚ) : WithTop ℚ) := by
  have hp : (astar_pathfinding lineGraph4 hdistZero 1 4 "time").path = some [1, 2, 3, 4] := by
    with_unfolding_all decide
  refine ⟨hp, cost_consistent lineGraph4 hdistZero 1 4 "time" [1, 2, 3, 4] hp ?_⟩
  with_unfolding_all decide

/-- C4: when the goal is not reachable from the start, the search loop
terminates by exhausting the frontier and returns — as an ordinary result,
not an error — the empty-path sentinel with positive-infinity total cost. -/
theorem unreachable_returns_empty_and_infinity (G : Graph) (hdist : Nat → ℚ)
    (s t : Nat) (w : String) (hWF : G.WF) (hs : s ∈ G.nodeIds)
    (hnr : ¬ Reach G s t) :
    ∃ r, astarLoop G hdist s t w (searchFuel G) (initState s) = some r ∧
      r.path = none ∧ r.cost = ⊤ ∧ astar_pathfinding G hdist s t w = r := by
  obtain ⟨r, hr, hwrap⟩ := @astar_pathfinding_runs G hdist s t w hWF hs
  refine ⟨r, hr, ?_, ?_, hwrap⟩ <;>
    [skip; skip] <;> first
  | (have hst : s ≠ t := fun h => hnr (h ▸ Reach.refl)
     rw [searchFuel_succ, astarLoop_first_step G hdist s t w _ hst] at hr
     rcases astarLoop_sound _ _ r (init_relax_inv G hdist w s) hr with
       ⟨h1, h2, _⟩ | ⟨_, _, _, _, hreach, _⟩
     · first
       | exact h1
       | exact h2
     · exact absurd hreach hnr)

theorem unreachable_returns_empty_and_infinity_witness :
    noEdgeGraph.WF ∧ (1 ∈ noEdgeGraph.nodeIds) ∧ (¬ Reach noEdgeGraph 1 2) ∧
    (astar_pathfinding noEdgeGraph hdistZero 1 2 "pollution").path = none ∧
    (astar_pathfinding noEdgeGraph hdistZero 1 2 "pollution").cost = ⊤ := by
  have hnr : ¬ Reach noEdgeGraph 1 2 := by
    intro h
    have hfix : ∀ x, Reach noEdgeGraph 1 x → x = 1 := by
      intro x hx
      induction hx with
      | refl => rfl
      | step a b _ hb _ =>
        exfalso
        simp [Graph.neighbors, noEdgeGraph] at hb
    exact absurd (hfix 2 h) (by norm_num)
  obtain ⟨r, _, hpath, hcost, hwrap⟩ :=
    unreachable_returns_empty_and_infinity noEdgeGraph hdistZero 1 2 "pollution"
      (by with_unfolding_all decide) (by with_unfolding_all decide) hnr
  exact ⟨by with_unfolding_all decide, by with_unfolding_all decide, hnr,
    by rw [hwrap]; exact hpath, by rw [hwrap]; exact hcost⟩

/-- C10: every non-empty path the search returns starts at the start node,
ends at the goal node, and each consecutive pair is joined by an edge present
in the graph. -/
theorem returned_path_wellformed (G : Graph) (hdist : Nat → ℚ) (s t : Nat) (w : String)
    (p : List Nat) (hnn : ∀ u v, 0 ≤ cost0 G w u v)
    (hp : (astar_pathfinding G hdist s t w).path = some p) :
    p.head? = some s ∧ p.getLast? = some t ∧
      ∀ ab ∈ routePairs p, ab.2 ∈ G.neighbors ab.1 := by
  rcases hr : astarLoop G hdist s t w (searchFuel G) (initState s) with _ | r
  · have hwrap : astar_pathfinding G hdist s t w = ⟨none, ⊤, [], []⟩ := by
      unfold astar_pathfinding
      rw [hr]
      rfl
    rw [hwrap] at hp
    simp at hp
  · have hwrap : astar_pathfinding G hdist s t w = r := by
      unfold astar_pathfinding
      rw [hr]
      rfl
    rw [hwrap] at hp
    by_cases hst : s = t
    · subst hst
      rw [searchFuel_succ, astarLoop_start_eq_goal] at hr
      obtain rfl := Option.some.inj hr
      simp only at hp
      obtain rfl := Option.some.inj hp
      refine ⟨rfl, rfl, ?_⟩
      intro ab hab
      simp [routePairs] at hab
    · rw [searchFuel_succ, astarLoop_first_step G hdist s t w _ hst] at hr
      rcases astarLoop_sound _ _ r (init_relax_inv G hdist w s) hr with
        ⟨hnone, _, _⟩ | ⟨p', hp', _, _, _, hh, hl, hch⟩
      · rw [hnone] at hp
        cases hp
      · rw [hp'] at hp
        obtain rfl := Option.some.inj hp
        exact ⟨hh, hl, chain'_routePairs hch⟩

theorem returned_path_wellformed_witness :
    (∀ u v, (0 : ℚ) ≤ cost0 lineGraph4 "pollution" u v) ∧
    (astar_pathfinding lineGraph4 hdistZero 1 4 "pollution").path = some [1, 2, 3, 4] ∧
    ([1, 2, 3, 4] : List Nat).head? = some 1 ∧
    ([1, 2, 3, 4] : List Nat).getLast? = some 4 ∧
    ∀ ab ∈ routePairs [1, 2, 3, 4], ab.2 ∈ lineGraph4.neighbors ab.1 := by
  have hnn : ∀ u v, (0 : ℚ) ≤ cost0 lineGraph4 "pollution" u v := by
    intro u v
    unfold cost0 edge0 Graph.edgesBetween
    rcases h : lineGraph4.adj.find? (fun t => decide (t.1 = u) && decide (t.2.1 = v)) with _ | t
    · rw [h]
      with_unfolding_all decide
    · rw [h]
      have hmem := List.mem_of_find?_eq_some h
      simp only [lineGraph4, List.mem_cons, List.not_mem_nil, or_false] at hmem
      rcases hmem with h1 | h1 | h1 <;> subst h1 <;> with_unfolding_all decide
  have hp : (astar_pathfinding lineGraph4 hdistZero 1 4 "pollution").path =
      some [1, 2, 3, 4] := by
    with_unfolding_all decide
  obtain ⟨h1, h2, h3⟩ :=
    returned_path_wellformed lineGraph4 hdistZero 1 4 "pollution" [1, 2, 3, 4] hnn hp
  exact ⟨hnn, hp, h1, h2, h3⟩
